import Mathlib

/-!
# wasmint: the linear memory (`Heap`) of the interpreter

A shallow embedding of `libwasmint/interpreter/heap/Heap.h` and of the
observer interface of `HeapObserver.h`, followed by theorems about it.

Conventions of the embedding

* `std::size_t` is a natural number below `2 ^ 64`; every addition the source
  performs on it is written with an explicit wrap (`sizeAdd`) or goes through
  the checked addition `safeSizeTAddition`.
* `uint8_t` is `Fin 256`, `std::vector<uint8_t>` is `List Byte`.
* A value of a fixed-width scalar type `T` is given by `sizeof(T)` and by the
  unsigned number its object representation denotes; `memcpy` of the value
  moves the `sizeof(T)` bytes of that representation in host byte order.
* A method that mutates the heap returns an `Effect`: the value returned (or the
  exception thrown), the heap afterwards, and the `preChanged` calls it made on
  the attached observer, in order.
-/

namespace wasmint

/-! ## Machine integers and bytes -/

/-- The largest value of `std::size_t` (64-bit host). -/
def SIZE_MAX : Nat := 2 ^ 64 - 1

/-- Unchecked `std::size_t` addition: wraps modulo `2 ^ 64`. -/
def sizeAdd (a b : Nat) : Nat := (a + b) % (SIZE_MAX + 1)

/-- Unchecked `std::size_t` multiplication: wraps modulo `2 ^ 64`. -/
def sizeMul (a b : Nat) : Nat := (a * b) % (SIZE_MAX + 1)

/-- The type `uint8_t`. -/
abbrev Byte := Fin 256

/-- Modelled from the spec: `SafeAddition.h` is not among the sources. The spec
calls it a checked addition that fails when `a + b` overflows the host size
type; every caller in `Heap.h` treats a `true` return as the overflow case and
reads `*result` only after a `false` return. `none` stands for the `true`
return, `some r` for a `false` return with `*result == r`. -/
def safeSizeTAddition (a b : Nat) : Option Nat :=
  if a + b > SIZE_MAX then none else some (a + b)

/-! ## Scalar values and their object representation -/

/-- Byte order of the host. -/
inductive ByteOrder where
  | little
  | big
  deriving DecidableEq, Repr

/-- The `s` low-order bytes of `v`, least significant first. -/
def leBytes : Nat → Nat → List Byte
  | 0, _ => []
  | s + 1, v => ⟨v % 256, Nat.mod_lt v (by decide)⟩ :: leBytes s (v / 256)

/-- The number denoted by a byte sequence, least significant byte first. -/
def leValue : List Byte → Nat
  | [] => 0
  | b :: bs => b.val + 256 * leValue bs

/-- Object representation of the unsigned value `v` of a scalar type of size
`s`: what `memcpy(dst, &value, sizeof(T))` copies. -/
def objectRepr (order : ByteOrder) (s v : Nat) : List Byte :=
  match order with
  | .little => leBytes s v
  | .big => (leBytes s v).reverse

/-- The value whose object representation is `bs`: what
`memcpy(value, src, sizeof(T))` stores into `*value`. -/
def objectValue (order : ByteOrder) (bs : List Byte) : Nat :=
  match order with
  | .little => leValue bs
  | .big => leValue bs.reverse

/-! ## Standard-library primitives on byte vectors -/

/-- The call `std::vector::resize(n, v)`: truncate to `n` elements, or append
copies of `v` up to length `n`. -/
def vectorResize (data : List Byte) (n : Nat) (v : Byte) : List Byte :=
  data.take n ++ List.replicate (n - data.length) v

/-- The call `std::fill(begin + first, begin + last, v)`. -/
def stdFill (data : List Byte) (first last : Nat) (v : Byte) : List Byte :=
  data.take first ++ List.replicate (last - first) v ++ data.drop last

/-- The bytes of `dst` with `src` written over positions
`[pos, pos + src.length)`. -/
def writeAt (dst : List Byte) (pos : Nat) (src : List Byte) : List Byte :=
  dst.take pos ++ src ++ dst.drop (pos + src.length)

/-- The call `std::memcpy(data + pos, src, n)` into the vector's storage. Every
call in `Heap.h` is preceded by a bounds check, so only in-range writes
occur. -/
def memcpyInto (dst : List Byte) (pos : Nat) (src : List Byte) : List Byte :=
  writeAt dst pos src

/-- The call `std::memcpy(value, data + pos, n)` out of the vector's storage
(guarded by a bounds check at every call). -/
def memcpyFrom (src : List Byte) (pos n : Nat) : List Byte :=
  (src.drop pos).take n

/-- The call `std::copy(src.begin(), src.end(), dst.begin() + pos)`. The
constructor that uses it performs no bounds check; `none` is the undefined
behaviour of writing past the end of `dst`. -/
def stdCopy (dst : List Byte) (pos : Nat) (src : List Byte) : Option (List Byte) :=
  if pos + src.length ≤ dst.length then some (writeAt dst pos src) else none

/-! ## Interval, observer, heap -/

/-- Modelled from the spec: `Interval.h` is not among the sources. The spec
describes a pair `(start, end)` of byte offsets, read as the half-open range
`[start, end)`. -/
structure Interval where
  start : Nat
  stop : Nat
  deriving DecidableEq, Repr

/-- Modelled from the spec: the constructor `Interval::withEnd(s, e)` of the
absent `Interval.h`; it builds the pair and requires `s ≤ e`, which is
stated separately as `Interval.ordered`. -/
def Interval.withEnd (s e : Nat) : Interval := ⟨s, e⟩

/-- The ordering `start ≤ end` that `Interval::withEnd` requires. -/
def Interval.ordered (i : Interval) : Prop := i.start ≤ i.stop

instance (i : Interval) : Decidable i.ordered := by
  unfold Interval.ordered; exact inferInstance

/-- A non-null `HeapObserver*`: the identity of an observer object. -/
abbrev ObserverPtr := Nat

/-- Exceptions declared in `Heap.h`, and `std::out_of_range` of
`std::vector::at`. -/
inductive HeapError where
  | OverFlowInHeapAccess
  | OutOfBounds
  | OnlyOneObserverSupported
  | out_of_range
  deriving DecidableEq, Repr

/-- Outcome of a call that may throw. -/
inductive Res (α : Type) where
  | returned (a : α)
  | threw (e : HeapError)
  deriving DecidableEq, Repr

/-- The class `Heap`: the byte vector `data_` and the observer pointer
`observer_` (`none` is `nullptr`). -/
structure Heap where
  data_ : List Byte
  observer_ : Option ObserverPtr
  deriving DecidableEq, Repr

/-- One call `observer_->preChanged(*this, changedInterval)`: the observer
called, the heap as it is at the moment of the call, and the interval. -/
structure PreChanged where
  observer : ObserverPtr
  heap : Heap
  changedInterval : Interval
  deriving DecidableEq, Repr

/-- What a mutating method does: its return value, the heap afterwards and the
observer notifications made during the call. -/
structure Effect (α : Type) where
  ret : α
  heap : Heap
  calls : List PreChanged
  deriving DecidableEq, Repr

/-- Modelled from the spec: `HeapData.h` is not among the sources. A segment
is an `(offset, bytes)` pair. -/
structure HeapSegment where
  offset : Nat
  data : List Byte
  deriving DecidableEq, Repr

/-- Modelled from the spec: `HeapData.h` is not among the sources. The
heap-initialization descriptor of a module: initial size and ordered
segments. -/
structure HeapData where
  startSize : Nat
  segments : List HeapSegment
  deriving DecidableEq, Repr

namespace Heap

/-- The constant `maxSize_`. -/
def maxSize_ : Nat := 1073741824

/-- The constant `pageSize_`. -/
def pageSize_ : Nat := 65536

/-- Whether the build defines the preprocessor symbol
`WASMINT_FUTURE_COMPABILITY`; the active build does not. -/
def WASMINT_FUTURE_COMPABILITY : Bool := false

/-- The method `size()`. -/
def size (h : Heap) : Nat := h.data_.length

/-- The default constructor `Heap()`. -/
def empty : Heap := ⟨[], none⟩

/-- The method `resize(size)`. -/
def resize (h : Heap) (size : Nat) : Effect Bool :=
  if size > maxSize_ then ⟨false, h, []⟩
  else
    let d1 := vectorResize h.data_ size 0
    let d2 :=
      if WASMINT_FUTURE_COMPABILITY then
        if size % pageSize_ = 0 then vectorResize d1 size 0
        else
          -- round up to next page
          let pages := sizeAdd (size % pageSize_) 1
          vectorResize d1 (sizeMul pages pageSize_) 0
      else d1
    ⟨true, { h with data_ := d2 }, []⟩

/-- The constructor `Heap(std::size_t size)`: the result of `resize` is
discarded. -/
def sized (size : Nat) : Heap := (empty.resize size).heap

/-- The loop of `Heap(const HeapData&)` over the segments. -/
def copySegments : List HeapSegment → List Byte → Option (List Byte)
  | [], data => some data
  | seg :: rest, data =>
    match stdCopy data seg.offset seg.data with
    | none => none
    | some data1 => copySegments rest data1

/-- The constructor `Heap(const wasm_module::HeapData&)`; `none` when a
segment copy runs past the end of the buffer (undefined behaviour). -/
def fromHeapData (d : HeapData) : Option Heap :=
  let h1 := (empty.resize d.startSize).heap
  let d2 := stdFill h1.data_ 0 h1.data_.length 0
  match copySegments d.segments d2 with
  | none => none
  | some d3 => some { h1 with data_ := d3 }

/-- The method `getByte(pos)`: unchecked `data_[pos]`; `none` when the index is
out of range (undefined behaviour). -/
def getByte (h : Heap) (pos : Nat) : Option Byte := h.data_[pos]?

/-- The method `setByte(position, value)`: `data_.at(position) = value`. -/
def setByte (h : Heap) (position : Nat) (value : Byte) : Effect (Res Unit) :=
  if position < h.data_.length then
    ⟨.returned (), { h with data_ := h.data_.set position value }, []⟩
  else ⟨.threw .out_of_range, h, []⟩

/-- The method `grow(size)`. -/
def grow (h : Heap) (size : Nat) : Effect Bool :=
  let oldSize := h.data_.length
  match safeSizeTAddition oldSize size with
  | none => ⟨false, h, []⟩
  | some newSize =>
    if newSize > maxSize_ then ⟨false, h, []⟩
    else
      let d1 := vectorResize h.data_ newSize 0
      ⟨true, { h with data_ := stdFill d1 oldSize d1.length 0 }, []⟩

/-- The method `shrink(size)`. -/
def shrink (h : Heap) (size : Nat) : Effect Bool :=
  if size > h.data_.length then ⟨false, h, []⟩
  else ⟨true, { h with data_ := vectorResize h.data_ (h.data_.length - size) 0 }, []⟩

/-- The method `setBytes(offset, bytes)`; the loop
`for (i = offset; i < offset + bytes.size(); i++) data_[i] = bytes[i - offset]`
is a fold over the indices. -/
def setBytes (h : Heap) (offset : Nat) (bytes : List Byte) : Effect (Res Unit) :=
  match safeSizeTAddition offset bytes.length with
  | none => ⟨.threw .OverFlowInHeapAccess, h, []⟩
  | some stop =>
    if stop > h.data_.length then ⟨.threw .OutOfBounds, h, []⟩
    else
      let d1 := (List.range' offset (sizeAdd offset bytes.length - offset)).foldl
        (fun d i => d.set i (bytes.getD (i - offset) 0)) h.data_
      ⟨.returned (), { h with data_ := d1 }, []⟩

/-- The method `setStaticOffset<T>(staticOffset, offset, value)` for a scalar
type of size `s`. -/
def setStaticOffset (h : Heap) (order : ByteOrder) (s : Nat)
    (staticOffset offset value : Nat) : Effect Bool :=
  match safeSizeTAddition offset s with
  | none => ⟨false, h, []⟩
  | some end1 =>
    match safeSizeTAddition staticOffset end1 with
    | none => ⟨false, h, []⟩
    | some end2 =>
      if end2 > h.data_.length then ⟨false, h, []⟩
      else
        let start := sizeAdd offset staticOffset
        let calls :=
          match h.observer_ with
          | some o => [⟨o, h, Interval.withEnd start (sizeAdd start s)⟩]
          | none => []
        ⟨true, { h with data_ := memcpyInto h.data_ start (objectRepr order s value) }, calls⟩

/-- The method `set<T>(offset, value)` for a scalar type of size `s`. -/
def set (h : Heap) (order : ByteOrder) (s : Nat) (offset value : Nat) : Effect Bool :=
  match safeSizeTAddition offset s with
  | none => ⟨false, h, []⟩
  | some stop =>
    if stop > h.data_.length then ⟨false, h, []⟩
    else
      let calls :=
        match h.observer_ with
        | some o => [⟨o, h, Interval.withEnd offset (sizeAdd offset s)⟩]
        | none => []
      ⟨true, { h with data_ := memcpyInto h.data_ offset (objectRepr order s value) }, calls⟩

/-- The method `get<T>(offset, value)` for a scalar type of size `s`: the
boolean returned and the content of `*value` afterwards (`value` is its content
before). -/
def get (h : Heap) (order : ByteOrder) (s : Nat) (offset value : Nat) : Bool × Nat :=
  match safeSizeTAddition offset s with
  | none => (false, value)
  | some stop =>
    if stop > h.data_.length then (false, value)
    else (true, objectValue order (memcpyFrom h.data_ offset s))

/-- The method `getStaticOffset<T>(offset, staticOffset, value)` for a scalar
type of size `s`. -/
def getStaticOffset (h : Heap) (order : ByteOrder) (s : Nat)
    (offset staticOffset value : Nat) : Bool × Nat :=
  match safeSizeTAddition offset s with
  | none => (false, value)
  | some end1 =>
    match safeSizeTAddition staticOffset end1 with
    | none => (false, value)
    | some end2 =>
      if end2 > h.data_.length then (false, value)
      else (true, objectValue order (memcpyFrom h.data_ (sizeAdd offset staticOffset) s))

/-- The method `getBytes(offset, size)`; the loop
`for (i = offset; i < offset + size; i++) result[i - offset] = data_[i]`
is a fold over the indices. -/
def getBytes (h : Heap) (offset size : Nat) : Res (List Byte) :=
  match safeSizeTAddition offset size with
  | none => .threw .OverFlowInHeapAccess
  | some stop =>
    if stop > h.data_.length then .threw .OutOfBounds
    else
      let result := vectorResize [] size 0
      .returned ((List.range' offset (sizeAdd offset size - offset)).foldl
        (fun r i => r.set (i - offset) (h.data_.getD i 0)) result)

/-- The method `removeObserver()`. -/
def removeObserver (h : Heap) : Heap := { h with observer_ := none }

/-- The method `attachObserver(newObserver)`. -/
def attachObserver (h : Heap) (newObserver : ObserverPtr) : Effect (Res Unit) :=
  match h.observer_ with
  | some _ => ⟨.threw .OnlyOneObserverSupported, h, []⟩
  | none => ⟨.returned (), { h with observer_ := some newObserver }, []⟩

/-- A heap a C++ program can hold: the vector's length fits `std::size_t`. -/
def representable (h : Heap) : Prop := h.data_.length ≤ SIZE_MAX

end Heap

/-! ## The specification's description of segment initialization -/

/-- Whether byte index `i` lies in the range
`[offset, offset + data.len)` of the segment. -/
def HeapSegment.covers (seg : HeapSegment) (i : Nat) : Bool :=
  decide (seg.offset ≤ i) && decide (i < seg.offset + seg.data.length)

/-- The byte the specification prescribes at index `i` after construction from
the segments `segs`: the data byte of the last segment, in the order supplied,
whose range contains `i`, and zero when no segment contains `i`. -/
def expectedInitialByte (segs : List HeapSegment) (i : Nat) : Byte :=
  match segs.reverse.find? (fun seg => seg.covers i) with
  | some seg => seg.data.getD (i - seg.offset) 0
  | none => 0

/-! ## Range comparison -/

/-- Unchecked `std::size_t` subtraction of two size values: wraps modulo
`2 ^ 64`. -/
def sizeSub (a b : Nat) : Nat := (a + (SIZE_MAX + 1) - b) % (SIZE_MAX + 1)

/-- The call `std::memcmp(a.data() + pos, b.data() + pos, n) == 0`; `none` is
the undefined behaviour of reading past the end of either buffer. -/
def memcmpEq (a b : List Byte) (pos n : Nat) : Option Bool :=
  if pos + n ≤ a.length ∧ pos + n ≤ b.length then
    some (decide ((a.drop pos).take n = (b.drop pos).take n))
  else none

/-- The second half of `equalRange`: the clamp of `end` to the other heap's
size, and the `memcmp` over `end - start` bytes. -/
def Heap.equalRangeOther (h other : Heap) (start stop : Nat) : Option Bool :=
  if stop > other.data_.length then
    if other.size ≠ h.size then some false
    else memcmpEq h.data_ other.data_ start (sizeSub other.data_.length start)
  else memcmpEq h.data_ other.data_ start (sizeSub stop start)

/-- The method `equalRange(other, start, end)`: the clamp of `end` to this
heap's size, then `equalRangeOther`. -/
def Heap.equalRange (h other : Heap) (start stop : Nat) : Option Bool :=
  if stop > h.data_.length then
    if other.size ≠ h.size then some false
    else h.equalRangeOther other start h.data_.length
  else h.equalRangeOther other start stop

/-! ## VMState -/

/-- Modelled from the spec: `VMThread.h` is not among the sources. The spec
gives the thread's contract: `finished()`, `step(heap)`, which runs one
instruction against the heap, and `stepDebug(heap)`, which does the same and
returns whether a breakpoint fired. `T` is the thread's state. -/
structure VMThread (T : Type) where
  finished : T → Bool
  step : T → Heap → T × Heap
  stepDebug : T → Heap → Bool × T × Heap

/-- Modelled from the spec: the declaration of `wasm_module::Module` is not
among the sources; `VMState` reads only its `heapData()`. -/
structure Module where
  heapData : HeapData
  deriving DecidableEq, Repr

/-- Modelled from the spec: the declaration of `InstructionCounter` is not
among the sources; the spec describes an unsigned integer that `++` advances
by one. -/
abbrev InstructionCounter := Nat

/-- The class `VMState`: its members `heap_`, `instructionCounter_` and
`thread_`. -/
structure VMState (T : Type) where
  heap_ : Heap
  instructionCounter_ : InstructionCounter
  thread_ : T
  deriving DecidableEq, Repr

/-- How a call of `useModule` ends: a normal return, or the
`std::domain_error("Only one module with heap supported at the moment")`
thrown, each with the state afterwards. -/
inductive UseModuleOutcome (T : Type) where
  | returned (s : VMState T)
  | domain_error (s : VMState T)
  deriving DecidableEq, Repr

namespace VMState

variable {T : Type}

/-- The method `useModule(module)`; `none` when the constructor
`Heap(module.heapData())` has undefined behaviour. -/
def useModule (s : VMState T) (module : Module) : Option (UseModuleOutcome T) :=
  if module.heapData.startSize ≠ 0 then
    if s.heap_.size = 0 then
      match Heap.fromHeapData module.heapData with
      | some h => some (.returned { s with heap_ := h })
      | none => none
    else some (.domain_error s)
  else some (.returned s)

/-- The method `step()`: the boolean returned and the state afterwards. -/
def step (ops : VMThread T) (s : VMState T) : Bool × VMState T :=
  let counter := s.instructionCounter_ + 1
  if !ops.finished s.thread_ then
    let r := ops.step s.thread_ s.heap_
    (true, ⟨r.2, counter, r.1⟩)
  else (false, { s with instructionCounter_ := counter })

/-- The method `stepDebug()`: the boolean returned and the state afterwards. -/
def stepDebug (ops : VMThread T) (s : VMState T) : Bool × VMState T :=
  let counter := s.instructionCounter_ + 1
  if !ops.finished s.thread_ then
    let r := ops.stepDebug s.thread_ s.heap_
    (true, ⟨r.2.2, counter, r.2.1⟩)
  else (false, { s with instructionCounter_ := counter })

/-- The loop `while (!thread_.finished()) { ++instructionCounter_;
if (thread_.stepDebug(heap_)) break; }` run for at most `fuel` iterations;
`none` when the fuel does not suffice. -/
def debugLoop (ops : VMThread T) : Nat → VMState T → Option (VMState T)
  | 0, s => if !ops.finished s.thread_ then none else some s
  | fuel + 1, s =>
    if !ops.finished s.thread_ then
      let counter := s.instructionCounter_ + 1
      let r := ops.stepDebug s.thread_ s.heap_
      if r.1 then some ⟨r.2.2, counter, r.2.1⟩
      else debugLoop ops fuel ⟨r.2.2, counter, r.2.1⟩
    else some s

/-- The loop `while (!thread_.finished()) { ++instructionCounter_;
thread_.step(heap_); }` run for at most `fuel` iterations; `none` when the
fuel does not suffice. -/
def plainLoop (ops : VMThread T) : Nat → VMState T → Option (VMState T)
  | 0, s => if !ops.finished s.thread_ then none else some s
  | fuel + 1, s =>
    if !ops.finished s.thread_ then
      let counter := s.instructionCounter_ + 1
      let r := ops.step s.thread_ s.heap_
      plainLoop ops fuel ⟨r.2, counter, r.1⟩
    else some s

/-- The method `stepUntilFinished(checkBreakpoints)`, with a bound `fuel` on the
number of loop iterations. -/
def stepUntilFinished (ops : VMThread T) (checkBreakpoints : Bool) (fuel : Nat)
    (s : VMState T) : Option (VMState T) :=
  if checkBreakpoints then debugLoop ops fuel s else plainLoop ops fuel s

/-- The state after `k` successive calls of `step()`. -/
def stepTimes (ops : VMThread T) : Nat → VMState T → VMState T
  | 0, s => s
  | k + 1, s => stepTimes ops k (step ops s).2

end VMState

/-! ## Runs of a thread, as the claims about `stepUntilFinished` describe them -/

/-- Thread and heap after `k` applications of `thread.step(heap)`. -/
def threadRun {T : Type} (ops : VMThread T) : Nat → T × Heap → T × Heap
  | 0, p => p
  | k + 1, p => threadRun ops k (ops.step p.1 p.2)

/-- Thread and heap after `k` applications of `thread.stepDebug(heap)`. -/
def debugRun {T : Type} (ops : VMThread T) : Nat → T × Heap → T × Heap
  | 0, p => p
  | k + 1, p => debugRun ops k (ops.stepDebug p.1 p.2).2

/-- Whether the application number `k + 1` of `thread.stepDebug(heap)` reports
a breakpoint. -/
def debugHit {T : Type} (ops : VMThread T) (k : Nat) (p : T × Heap) : Bool :=
  (ops.stepDebug (debugRun ops k p).1 (debugRun ops k p).2).1

/-! ## A sample thread -/

/-- One instruction of the sample thread: `get<uint8>(0, &x)` followed by
`set<uint8>(0, x + 1)`. -/
def incrementCell (h : Heap) : Heap :=
  (h.set .little 1 0 (((h.get .little 1 0 0).2 + 1) % 256)).heap

/-- A thread whose state is the number of instructions left; each instruction
increments the memory cell at address 0, and `stepDebug` reports a breakpoint
on the instruction run when `bp` instructions are left. -/
def cellThread (bp : Nat) : VMThread Nat where
  finished t := t == 0
  step t h := (t - 1, incrementCell h)
  stepDebug t h := (t == bp, t - 1, incrementCell h)

end wasmint

/-! ## Auxiliary facts -/

namespace wasmint

theorem safeSizeTAddition_eq_some {a b r : Nat} :
    safeSizeTAddition a b = some r ↔ a + b ≤ SIZE_MAX ∧ r = a + b := by
  unfold safeSizeTAddition
  split_ifs with h
  · simp; omega
  · simp; constructor
    · intro e; omega
    · intro e; omega

theorem safeSizeTAddition_eq_none {a b : Nat} :
    safeSizeTAddition a b = none ↔ SIZE_MAX < a + b := by
  unfold safeSizeTAddition
  split_ifs with h <;> simp <;> omega

theorem safeSizeTAddition_of_le {a b : Nat} (h : a + b ≤ SIZE_MAX) :
    safeSizeTAddition a b = some (a + b) :=
  safeSizeTAddition_eq_some.mpr ⟨h, rfl⟩

theorem sizeAdd_of_le {a b : Nat} (h : a + b ≤ SIZE_MAX) : sizeAdd a b = a + b := by
  unfold sizeAdd
  exact Nat.mod_eq_of_lt (by omega)

theorem length_leBytes (s v : Nat) : (leBytes s v).length = s := by
  induction s generalizing v with
  | zero => rfl
  | succ n ih => simp [leBytes, ih]

theorem leValue_leBytes (s v : Nat) : leValue (leBytes s v) = v % 256 ^ s := by
  induction s generalizing v with
  | zero => simp [leBytes, leValue, Nat.mod_one]
  | succ n ih =>
    simp only [leBytes, leValue, ih]
    rw [pow_succ', Nat.mod_mul]

theorem length_objectRepr (order : ByteOrder) (s v : Nat) :
    (objectRepr order s v).length = s := by
  cases order <;> simp [objectRepr, length_leBytes]

theorem objectValue_objectRepr (order : ByteOrder) (s v : Nat) :
    objectValue order (objectRepr order s v) = v % 256 ^ s := by
  cases order <;> simp [objectRepr, objectValue, leValue_leBytes]

theorem length_writeAt {dst src : List Byte} {pos : Nat}
    (h : pos + src.length ≤ dst.length) : (writeAt dst pos src).length = dst.length := by
  simp [writeAt]; omega

theorem getElem?_writeAt_outside {dst src : List Byte} {pos i : Nat}
    (h : pos + src.length ≤ dst.length) (hi : i < pos ∨ pos + src.length ≤ i) :
    (writeAt dst pos src)[i]? = dst[i]? := by
  unfold writeAt
  rcases hi with hi | hi
  · rw [List.append_assoc, List.getElem?_append_left (by simp; omega)]
    exact List.getElem?_take_of_lt hi
  · rw [List.getElem?_append_right (by simp; omega)]
    simp only [List.length_append, List.length_take, List.getElem?_drop]
    congr 1; omega

theorem getElem?_writeAt_inside {dst src : List Byte} {pos i : Nat}
    (h : pos + src.length ≤ dst.length) (hi : i < src.length) :
    (writeAt dst pos src)[pos + i]? = src[i]? := by
  unfold writeAt
  rw [List.getElem?_append_left (by simp; omega),
    List.getElem?_append_right (by simp)]
  simp only [List.length_take]
  congr 1; omega

theorem drop_take_writeAt {dst src : List Byte} {pos : Nat}
    (h : pos + src.length ≤ dst.length) :
    ((writeAt dst pos src).drop pos).take src.length = src := by
  unfold writeAt
  rw [List.append_assoc, List.drop_left' (by simp; omega), List.take_left' rfl]

/-- The full effect of a typed write whose range lies within the heap. -/
theorem set_of_inBounds (h : Heap) (order : ByteOrder) (s off v : Nat)
    (h1 : off + s ≤ SIZE_MAX) (h2 : off + s ≤ h.data_.length) :
    h.set order s off v =
      ⟨true, { h with data_ := writeAt h.data_ off (objectRepr order s v) },
        match h.observer_ with
        | some o => [⟨o, h, ⟨off, off + s⟩⟩]
        | none => []⟩ := by
  unfold Heap.set
  rw [safeSizeTAddition_of_le h1]
  simp only [gt_iff_lt, Nat.not_lt.mpr h2, if_false, memcpyInto, Interval.withEnd,
    sizeAdd_of_le h1]

theorem set_of_outOfBounds (h : Heap) (order : ByteOrder) (s off v : Nat)
    (h1 : SIZE_MAX < off + s ∨ h.data_.length < off + s) :
    h.set order s off v = ⟨false, h, []⟩ := by
  unfold Heap.set
  by_cases hov : SIZE_MAX < off + s
  · rw [safeSizeTAddition_eq_none.mpr hov]
  · rw [safeSizeTAddition_of_le (by omega)]
    have : h.data_.length < off + s := by omega
    simp [this]

theorem set_ret_iff (h : Heap) (order : ByteOrder) (s off v : Nat) :
    (h.set order s off v).ret = true ↔ off + s ≤ SIZE_MAX ∧ off + s ≤ h.data_.length := by
  by_cases hb : off + s ≤ SIZE_MAX ∧ off + s ≤ h.data_.length
  · rw [set_of_inBounds h order s off v hb.1 hb.2]; simp [hb]
  · rw [set_of_outOfBounds h order s off v (by omega)]; simp [hb]

theorem get_of_inBounds (h : Heap) (order : ByteOrder) (s off out : Nat)
    (h1 : off + s ≤ SIZE_MAX) (h2 : off + s ≤ h.data_.length) :
    h.get order s off out = (true, objectValue order ((h.data_.drop off).take s)) := by
  unfold Heap.get
  rw [safeSizeTAddition_of_le h1]
  simp only [gt_iff_lt, Nat.not_lt.mpr h2, if_false, memcpyFrom]

theorem get_of_outOfBounds (h : Heap) (order : ByteOrder) (s off out : Nat)
    (h1 : SIZE_MAX < off + s ∨ h.data_.length < off + s) :
    h.get order s off out = (false, out) := by
  unfold Heap.get
  by_cases hov : SIZE_MAX < off + s
  · rw [safeSizeTAddition_eq_none.mpr hov]
  · rw [safeSizeTAddition_of_le (by omega)]
    have : h.data_.length < off + s := by omega
    simp [this]

theorem get_ret_iff (h : Heap) (order : ByteOrder) (s off out : Nat) :
    (h.get order s off out).1 = true ↔ off + s ≤ SIZE_MAX ∧ off + s ≤ h.data_.length := by
  by_cases hb : off + s ≤ SIZE_MAX ∧ off + s ≤ h.data_.length
  · rw [get_of_inBounds h order s off out hb.1 hb.2]; simp [hb]
  · rw [get_of_outOfBounds h order s off out (by omega)]; simp [hb]

/-! ## Typed access -/

/-- C1: when `set<T>(off, v)` returns true, a following `get<T>(off, &out)`
returns true with `out == v`, the size is unchanged, and every byte outside
`[off, off + sizeof(T))` is unchanged. -/
theorem set_then_get (h : Heap) (order : ByteOrder) (s off v out : Nat)
    (hv : v < 256 ^ s) (hset : (h.set order s off v).ret = true) :
    (h.set order s off v).heap.get order s off out = (true, v)
      ∧ (h.set order s off v).heap.size = h.size
      ∧ ∀ i, i < off ∨ off + s ≤ i →
          (h.set order s off v).heap.data_[i]? = h.data_[i]? := by
  obtain ⟨h1, h2⟩ := (set_ret_iff h order s off v).mp hset
  rw [set_of_inBounds h order s off v h1 h2]
  have hlen := length_objectRepr order s v
  have hfit : off + (objectRepr order s v).length ≤ h.data_.length := by omega
  refine ⟨?_, ?_, ?_⟩
  · rw [get_of_inBounds _ order s off out h1 (by simp only [length_writeAt hfit]; exact h2)]
    have hd := drop_take_writeAt hfit
    rw [hlen] at hd
    simp only [hd, objectValue_objectRepr, Nat.mod_eq_of_lt hv]
  · simp only [Heap.size, length_writeAt hfit]
  · intro i hi
    exact getElem?_writeAt_outside hfit (by omega)

/-- The scenario of the specification: `Heap(8)`, `set<uint32>(2, 0xDEADBEEF)`
succeeds, reading back gives `0xDEADBEEF`, and `get<uint32>(5)` fails. -/
theorem set_then_get_witness :
    (0xDEADBEEF < 256 ^ 4 ∧ ((Heap.sized 8).set .little 4 2 0xDEADBEEF).ret = true)
      ∧ (((Heap.sized 8).set .little 4 2 0xDEADBEEF).heap.get .little 4 2 0 = (true, 0xDEADBEEF)
        ∧ ((Heap.sized 8).set .little 4 2 0xDEADBEEF).heap.size = (Heap.sized 8).size
        ∧ ∀ i, i < 2 ∨ 2 + 4 ≤ i →
          ((Heap.sized 8).set .little 4 2 0xDEADBEEF).heap.data_[i]? = (Heap.sized 8).data_[i]?)
      ∧ (((Heap.sized 8).set .little 4 2 0xDEADBEEF).heap.get .little 4 5 0).1 = false :=
  ⟨⟨by decide, by decide⟩,
    set_then_get (Heap.sized 8) .little 4 2 0xDEADBEEF 0 (by decide) (by decide),
    by decide⟩

theorem typed_access_iff_size (h : Heap) (hrep : h.representable)
    (order : ByteOrder) (s off v out : Nat) :
    ((h.set order s off v).ret = true ↔ off + s ≤ h.size)
      ∧ ((h.get order s off out).1 = true ↔ off + s ≤ h.size) := by
  unfold Heap.representable at hrep
  constructor
  · rw [set_ret_iff, Heap.size]; omega
  · rw [get_ret_iff, Heap.size]; omega

theorem set_of_ret_false (h : Heap) (order : ByteOrder) (s off v : Nat)
    (hf : (h.set order s off v).ret = false) : h.set order s off v = ⟨false, h, []⟩ := by
  have hn : ¬ (off + s ≤ SIZE_MAX ∧ off + s ≤ h.data_.length) := by
    rw [← set_ret_iff h order s off v, hf]; simp
  exact set_of_outOfBounds h order s off v (by omega)

theorem get_of_ret_false (h : Heap) (order : ByteOrder) (s off out : Nat)
    (hf : (h.get order s off out).1 = false) : (h.get order s off out).2 = out := by
  have hn : ¬ (off + s ≤ SIZE_MAX ∧ off + s ≤ h.data_.length) := by
    rw [← get_ret_iff h order s off out, hf]; simp
  rw [get_of_outOfBounds h order s off out (by omega)]

/-- C2: `set<T>` and `get<T>` return true exactly when `off + sizeof(T)`,
computed over unbounded integers, is at most the heap size; a failing call
changes neither the heap nor `*value`, and makes no observer call. -/
theorem typed_access_bounds (h : Heap) (hrep : h.representable)
    (order : ByteOrder) (s off v out : Nat) :
    ((h.set order s off v).ret = true ↔ off + s ≤ h.size)
      ∧ ((h.get order s off out).1 = true ↔ off + s ≤ h.size)
      ∧ ((h.set order s off v).ret = false → h.set order s off v = ⟨false, h, []⟩)
      ∧ ((h.get order s off out).1 = false → (h.get order s off out).2 = out) :=
  ⟨(typed_access_iff_size h hrep order s off v out).1,
    (typed_access_iff_size h hrep order s off v out).2,
    set_of_ret_false h order s off v, get_of_ret_false h order s off out⟩

/-- The overflow scenario of the specification: on `Heap(16)`,
`set<uint32>(SIZE_MAX - 1, 0)` returns false and the heap is unchanged. -/
theorem typed_access_bounds_witness :
    (Heap.sized 16).representable
      ∧ ((Heap.sized 16).set .little 4 (SIZE_MAX - 1) 0).ret = false
      ∧ (Heap.sized 16).set .little 4 (SIZE_MAX - 1) 0 = ⟨false, Heap.sized 16, []⟩ := by
  have hrep : (Heap.sized 16).representable := by
    unfold Heap.representable; decide
  have hc := typed_access_bounds (Heap.sized 16) hrep .little 4 (SIZE_MAX - 1) 0 0
  have hf : ((Heap.sized 16).set .little 4 (SIZE_MAX - 1) 0).ret = false := by decide
  exact ⟨hrep, hf, hc.2.2.1 hf⟩

/-! ## Sizing operations -/

theorem vectorResize_of_length_le (data : List Byte) (n : Nat) (v : Byte)
    (h : data.length ≤ n) :
    vectorResize data n v = data ++ List.replicate (n - data.length) v := by
  unfold vectorResize
  rw [List.take_of_length_le h]

theorem length_vectorResize (data : List Byte) (n : Nat) (v : Byte) :
    (vectorResize data n v).length = n := by
  simp [vectorResize]; omega

theorem getElem?_vectorResize_old (data : List Byte) (n i : Nat) (v : Byte)
    (hi : i < min data.length n) : (vectorResize data n v)[i]? = data[i]? := by
  unfold vectorResize
  rw [List.getElem?_append_left (by simp; omega)]
  exact List.getElem?_take_of_lt (by omega)

theorem getElem?_vectorResize_new (data : List Byte) (n i : Nat) (v : Byte)
    (h1 : data.length ≤ i) (h2 : i < n) : (vectorResize data n v)[i]? = some v := by
  unfold vectorResize
  rw [List.getElem?_append_right (by simp; omega), List.getElem?_replicate]
  simp only [List.length_take]
  rw [if_pos (by omega)]

theorem stdFill_appended_zeros (data : List Byte) (k : Nat) :
    stdFill (data ++ List.replicate k 0) data.length
      (data ++ List.replicate k 0).length 0 = data ++ List.replicate k 0 := by
  unfold stdFill
  rw [List.take_left' rfl, List.drop_of_length_le (Nat.le_refl _)]
  simp

theorem grow_of_fits (h : Heap) (delta : Nat)
    (h1 : h.data_.length + delta ≤ SIZE_MAX) (h2 : h.data_.length + delta ≤ Heap.maxSize_) :
    h.grow delta = ⟨true, { h with data_ := h.data_ ++ List.replicate delta 0 }, []⟩ := by
  unfold Heap.grow
  simp only [safeSizeTAddition_of_le h1, gt_iff_lt, Nat.not_lt.mpr h2, if_false]
  rw [vectorResize_of_length_le _ _ _ (by omega)]
  have hk : h.data_.length + delta - h.data_.length = delta := by omega
  rw [hk, stdFill_appended_zeros]

theorem grow_of_not_fits (h : Heap) (delta : Nat)
    (h1 : SIZE_MAX < h.data_.length + delta ∨ Heap.maxSize_ < h.data_.length + delta) :
    h.grow delta = ⟨false, h, []⟩ := by
  unfold Heap.grow
  by_cases hov : SIZE_MAX < h.data_.length + delta
  · simp only [safeSizeTAddition_eq_none.mpr hov]
  · simp only [safeSizeTAddition_of_le (Nat.le_of_not_lt hov)]
    have : Heap.maxSize_ < h.data_.length + delta := by omega
    simp [this]

/-- C3: `grow(delta)` returns false exactly when `size + delta` overflows the
size type or exceeds `maxSize_`, and then the heap is unchanged; otherwise it
returns true and the heap is the old bytes followed by `delta` zero bytes. -/
theorem grow_spec (h : Heap) (delta : Nat) :
    ((h.grow delta).ret = false ↔
        SIZE_MAX < h.size + delta ∨ Heap.maxSize_ < h.size + delta)
      ∧ ((h.grow delta).ret = false → h.grow delta = ⟨false, h, []⟩)
      ∧ ((h.grow delta).ret = true → h.grow delta =
          ⟨true, { h with data_ := h.data_ ++ List.replicate delta 0 }, []⟩) := by
  unfold Heap.size
  by_cases hb : SIZE_MAX < h.data_.length + delta ∨ Heap.maxSize_ < h.data_.length + delta
  · rw [grow_of_not_fits h delta hb]
    simp [hb]
  · rw [grow_of_fits h delta (by omega) (by omega)]
    simp [hb]

/-- The growth scenario of the specification: `Heap(4)`, `set<uint8>(3, 0xFF)`,
`grow(4)` succeeds and the bytes are `[0,0,0,0xFF,0,0,0,0]`. -/
theorem grow_spec_witness :
    (((Heap.sized 4).set .little 1 3 0xFF).heap.grow 4).ret = true
      ∧ (((Heap.sized 4).set .little 1 3 0xFF).heap.grow 4).heap.getBytes 0 8
          = .returned [0, 0, 0, 0xFF, 0, 0, 0, 0]
      ∧ ((Heap.sized 4).set .little 1 3 0xFF).heap.grow 4 =
          ⟨true, { ((Heap.sized 4).set .little 1 3 0xFF).heap with
            data_ := ((Heap.sized 4).set .little 1 3 0xFF).heap.data_
              ++ List.replicate 4 0 }, []⟩ :=
  ⟨by decide, by decide,
    (grow_spec ((Heap.sized 4).set .little 1 3 0xFF).heap 4).2.2 (by decide)⟩

theorem resize_of_le (h : Heap) (n : Nat) (hn : n ≤ Heap.maxSize_) :
    h.resize n = ⟨true, { h with data_ := vectorResize h.data_ n 0 }, []⟩ := by
  unfold Heap.resize
  simp [Nat.not_lt.mpr hn, Heap.WASMINT_FUTURE_COMPABILITY]

theorem resize_of_gt (h : Heap) (n : Nat) (hn : Heap.maxSize_ < n) :
    h.resize n = ⟨false, h, []⟩ := by
  unfold Heap.resize
  simp [hn]

/-- C4: `resize(n)` returns true exactly when `n ≤ maxSize_`; on success the
size is `n`, the bytes below `min(old size, n)` keep their value and the bytes
from the old size on are zero; on failure the heap is unchanged. -/
theorem resize_spec (h : Heap) (n : Nat) :
    ((h.resize n).ret = true ↔ n ≤ Heap.maxSize_)
      ∧ ((h.resize n).ret = true →
          (h.resize n).heap.size = n
          ∧ (∀ i, i < min h.size n → (h.resize n).heap.data_[i]? = h.data_[i]?)
          ∧ (∀ i, h.size ≤ i → i < n → (h.resize n).heap.data_[i]? = some 0)
          ∧ (h.resize n).heap.observer_ = h.observer_
          ∧ (h.resize n).calls = [])
      ∧ ((h.resize n).ret = false → h.resize n = ⟨false, h, []⟩)
      ∧ (h.resize Heap.maxSize_).ret = true
      ∧ (h.resize (Heap.maxSize_ + 1)).ret = false := by
  refine ⟨?_, ?_, ?_, ?_, ?_⟩
  · by_cases hn : n ≤ Heap.maxSize_
    · rw [resize_of_le h n hn]; simp [hn]
    · rw [resize_of_gt h n (by omega)]; simp [hn]
  · intro hr
    have hn : n ≤ Heap.maxSize_ := by
      by_contra hc
      rw [resize_of_gt h n (by omega)] at hr
      simp at hr
    rw [resize_of_le h n hn]
    refine ⟨?_, ?_, ?_, rfl, rfl⟩
    · simp only [Heap.size, length_vectorResize]
    · intro i hi
      exact getElem?_vectorResize_old _ _ _ _ hi
    · intro i h1 h2
      exact getElem?_vectorResize_new _ _ _ _ h1 h2
  · intro hr
    have hn : Heap.maxSize_ < n := by
      by_contra hc
      rw [resize_of_le h n (by omega)] at hr
      simp at hr
    exact resize_of_gt h n hn
  · rw [resize_of_le h _ (Nat.le_refl _)]
  · rw [resize_of_gt h _ (Nat.lt_succ_self _)]

/-- An instance of `resize_spec`: resizing `[0,0,0,0xFF]` to six bytes. -/
theorem resize_spec_witness :
    (((Heap.sized 4).set .little 1 3 0xFF).heap.resize 6).ret = true
      ∧ (((Heap.sized 4).set .little 1 3 0xFF).heap.resize 6).heap.data_
          = [0, 0, 0, 0xFF, 0, 0]
      ∧ ((((Heap.sized 4).set .little 1 3 0xFF).heap.resize 6).heap.size = 6
        ∧ (∀ i, i < min ((Heap.sized 4).set .little 1 3 0xFF).heap.size 6 →
            (((Heap.sized 4).set .little 1 3 0xFF).heap.resize 6).heap.data_[i]?
              = ((Heap.sized 4).set .little 1 3 0xFF).heap.data_[i]?)
        ∧ (∀ i, ((Heap.sized 4).set .little 1 3 0xFF).heap.size ≤ i → i < 6 →
            (((Heap.sized 4).set .little 1 3 0xFF).heap.resize 6).heap.data_[i]? = some 0)
        ∧ (((Heap.sized 4).set .little 1 3 0xFF).heap.resize 6).heap.observer_
            = ((Heap.sized 4).set .little 1 3 0xFF).heap.observer_
        ∧ (((Heap.sized 4).set .little 1 3 0xFF).heap.resize 6).calls = []) :=
  ⟨by decide, by decide,
    (resize_spec ((Heap.sized 4).set .little 1 3 0xFF).heap 6).2.1 (by decide)⟩

/-! ## Construction from segments -/

theorem copySegments_spec (segs : List HeapSegment) (data : List Byte)
    (hfit : ∀ seg ∈ segs, seg.offset + seg.data.length ≤ data.length) :
    ∃ out, Heap.copySegments segs data = some out ∧ out.length = data.length
      ∧ ∀ i, out[i]? =
          match segs.reverse.find? (fun seg => seg.covers i) with
          | some seg => seg.data[i - seg.offset]?
          | none => data[i]? := by
  induction segs generalizing data with
  | nil => exact ⟨data, rfl, rfl, fun i => by simp⟩
  | cons seg rest ih =>
    have hseg : seg.offset + seg.data.length ≤ data.length :=
      hfit seg (List.mem_cons_self _ _)
    have hlen := length_writeAt hseg
    obtain ⟨out, hout, hl, hbytes⟩ := ih (writeAt data seg.offset seg.data) (by
      intro x hx
      rw [hlen]
      exact hfit x (List.mem_cons_of_mem _ hx))
    refine ⟨out, ?_, by rw [hl, hlen], ?_⟩
    · simp only [Heap.copySegments, stdCopy, hseg, if_true, hout]
    · intro i
      rw [hbytes i, List.reverse_cons, List.find?_append]
      cases hfind : rest.reverse.find? (fun seg => seg.covers i) with
      | some found => simp
      | none =>
        simp only [Option.none_or, List.find?_cons, List.find?_nil]
        by_cases hc : seg.covers i = true
        · simp only [hc]
          simp only [HeapSegment.covers, Bool.and_eq_true, decide_eq_true_eq] at hc
          have hi : i = seg.offset + (i - seg.offset) := by omega
          conv_lhs => rw [hi]
          exact getElem?_writeAt_inside hseg (by omega)
        · simp only [hc]
          simp only [HeapSegment.covers, Bool.and_eq_true, decide_eq_true_eq, not_and,
            Nat.not_lt] at hc
          exact getElem?_writeAt_outside hseg (by
            by_cases h1 : seg.offset ≤ i
            · exact Or.inr (hc h1)
            · exact Or.inl (by omega))

/-- C5: for a `HeapData` with `startSize ≤ maxSize_` whose segments all lie
within `[0, startSize)`, the constructed heap has size `startSize` and byte `i`
is the data byte of the last segment whose range contains `i`, or zero when no
segment contains `i`. -/
theorem fromHeapData_spec (d : HeapData) (hsize : d.startSize ≤ Heap.maxSize_)
    (hsegs : ∀ seg ∈ d.segments, seg.offset + seg.data.length ≤ d.startSize) :
    ∃ h, Heap.fromHeapData d = some h ∧ h.size = d.startSize
      ∧ ∀ i, i < d.startSize → h.data_[i]? = some (expectedInitialByte d.segments i) := by
  have hzero : stdFill (vectorResize [] d.startSize 0) 0
      (vectorResize [] d.startSize 0).length 0 = List.replicate d.startSize 0 := by
    simp [stdFill, vectorResize]
  have hlen0 : (List.replicate d.startSize (0 : Byte)).length = d.startSize := by simp
  obtain ⟨out, hout, hl, hbytes⟩ := copySegments_spec d.segments
    (List.replicate d.startSize 0) (by intro seg hs; rw [hlen0]; exact hsegs seg hs)
  refine ⟨⟨out, none⟩, ?_, ?_, ?_⟩
  · unfold Heap.fromHeapData
    simp only [resize_of_le Heap.empty d.startSize hsize]
    simp only [Heap.empty, hzero, hout]
  · simp only [Heap.size, hl, hlen0]
  · intro i hi
    rw [hbytes i]
    unfold expectedInitialByte
    cases hfind : d.segments.reverse.find? (fun seg => seg.covers i) with
    | some found =>
      have hcov := List.find?_some hfind
      simp only [HeapSegment.covers, Bool.and_eq_true, decide_eq_true_eq] at hcov
      simp only [List.getD_eq_getElem?_getD]
      rw [List.getElem?_eq_getElem (by omega)]
      simp
    | none =>
      simp only [List.getElem?_replicate, hi, if_true]

/-- The segment scenario of the specification: `startSize = 16` with the
segment `(4, [1,2,3,4])`. -/
theorem fromHeapData_spec_witness :
    Heap.fromHeapData ⟨16, [⟨4, [1, 2, 3, 4]⟩]⟩
        = some ⟨[0, 0, 0, 0, 1, 2, 3, 4, 0, 0, 0, 0, 0, 0, 0, 0], none⟩
      ∧ ∃ h, Heap.fromHeapData ⟨16, [⟨4, [1, 2, 3, 4]⟩]⟩ = some h ∧ h.size = 16
        ∧ ∀ i, i < 16 →
          h.data_[i]? = some (expectedInitialByte [⟨4, [1, 2, 3, 4]⟩] i) :=
  ⟨by decide, fromHeapData_spec ⟨16, [⟨4, [1, 2, 3, 4]⟩]⟩ (by decide) (by decide)⟩

/-! ## Byte-range access -/

/-- The read loop of `getBytes`, element by element. -/
theorem getElem?_readLoop (f : Nat → Byte) (c n a : Nat) (r : List Byte) (k : Nat) :
    ((List.range' (c + a) n).foldl (fun r i => r.set (i - c) (f i)) r)[k]? =
      if a ≤ k ∧ k < a + n ∧ k < r.length then some (f (c + k)) else r[k]? := by
  induction n generalizing a r with
  | zero =>
    have : ¬ (a ≤ k ∧ k < a + 0 ∧ k < r.length) := by omega
    simp only [List.range'_zero, List.foldl_nil, this, if_false]
  | succ m ih =>
    rw [List.range'_succ, List.foldl_cons]
    have hstep := ih (a + 1) (r.set (c + a - c) (f (c + a)))
    rw [show c + a + 1 = c + (a + 1) from rfl, hstep]
    have hca : c + a - c = a := by omega
    simp only [List.length_set, List.getElem?_set, hca]
    by_cases hk : a = k
    · subst hk
      have h1 : ¬ (a + 1 ≤ a ∧ a < a + 1 + m ∧ a < r.length) := by omega
      rw [if_neg h1, if_pos rfl]
      by_cases hlt : a < r.length
      · rw [if_pos hlt, if_pos ⟨Nat.le_refl _, by omega, hlt⟩]
      · rw [if_neg hlt, if_neg (by omega), List.getElem?_eq_none (Nat.le_of_not_lt hlt)]
    · rw [if_neg hk]
      by_cases hin : a + 1 ≤ k ∧ k < a + 1 + m ∧ k < r.length
      · rw [if_pos hin, if_pos (by omega)]
      · rw [if_neg hin, if_neg (by omega)]

/-- The write loop of `setBytes`, element by element. -/
theorem getElem?_writeLoop (f : Nat → Byte) (n a : Nat) (d : List Byte) (k : Nat) :
    ((List.range' a n).foldl (fun d i => d.set i (f i)) d)[k]? =
      if a ≤ k ∧ k < a + n ∧ k < d.length then some (f k) else d[k]? := by
  induction n generalizing a d with
  | zero =>
    have : ¬ (a ≤ k ∧ k < a + 0 ∧ k < d.length) := by omega
    simp only [List.range'_zero, List.foldl_nil, this, if_false]
  | succ m ih =>
    rw [List.range'_succ, List.foldl_cons, ih (a + 1) (d.set a (f a))]
    simp only [List.length_set, List.getElem?_set]
    by_cases hk : a = k
    · subst hk
      have h1 : ¬ (a + 1 ≤ a ∧ a < a + 1 + m ∧ a < d.length) := by omega
      rw [if_neg h1, if_pos rfl]
      by_cases hlt : a < d.length
      · rw [if_pos hlt, if_pos ⟨Nat.le_refl _, by omega, hlt⟩]
      · rw [if_neg hlt, if_neg (by omega), List.getElem?_eq_none (Nat.le_of_not_lt hlt)]
    · rw [if_neg hk]
      by_cases hin : a + 1 ≤ k ∧ k < a + 1 + m ∧ k < d.length
      · rw [if_pos hin, if_pos (by omega)]
      · rw [if_neg hin, if_neg (by omega)]

theorem getBytes_of_inBounds (h : Heap) (offset n : Nat)
    (h1 : offset + n ≤ SIZE_MAX) (h2 : offset + n ≤ h.data_.length) :
    h.getBytes offset n = .returned ((h.data_.drop offset).take n) := by
  unfold Heap.getBytes
  simp only [safeSizeTAddition_of_le h1, gt_iff_lt, Nat.not_lt.mpr h2, if_false,
    sizeAdd_of_le h1, Nat.add_sub_cancel_left]
  congr 1
  apply List.ext_getElem?
  intro k
  have hloop := getElem?_readLoop (fun i => h.data_.getD i 0) offset n 0
    (vectorResize [] n 0) k
  rw [Nat.add_zero] at hloop
  rw [hloop, length_vectorResize, List.getElem?_take, List.getElem?_drop]
  by_cases hk : k < n
  · have hin : 0 ≤ k ∧ k < 0 + n ∧ k < n := by omega
    simp only [hin, hk, and_self, if_true, List.getD_eq_getElem?_getD]
    rw [List.getElem?_eq_getElem (by omega)]
    simp
  · have hl : (vectorResize [] n 0).length ≤ k := by rw [length_vectorResize]; omega
    simp only [hk, and_false, if_false, List.getElem?_eq_none hl]

/-- C6: `getBytes(offset, n)` throws `OverFlowInHeapAccess` when `offset + n`
overflows, `OutOfBounds` when it does not overflow but exceeds the size, and
otherwise returns `n` bytes whose `k`-th is `H[offset + k]`; with `n = 0` it
returns the empty sequence for every `offset ≤ size`. -/
theorem getBytes_spec (h : Heap) (offset n : Nat) :
    (SIZE_MAX < offset + n → h.getBytes offset n = .threw .OverFlowInHeapAccess)
      ∧ (offset + n ≤ SIZE_MAX → h.size < offset + n →
          h.getBytes offset n = .threw .OutOfBounds)
      ∧ (offset + n ≤ SIZE_MAX → offset + n ≤ h.size →
          ∃ bs, h.getBytes offset n = .returned bs ∧ bs.length = n
            ∧ ∀ k, k < n → bs[k]? = h.data_[offset + k]?)
      ∧ (h.representable → offset ≤ h.size → h.getBytes offset 0 = .returned []) := by
  unfold Heap.size Heap.representable
  refine ⟨?_, ?_, ?_, ?_⟩
  · intro hov
    unfold Heap.getBytes
    rw [safeSizeTAddition_eq_none.mpr hov]
  · intro h1 h2
    unfold Heap.getBytes
    simp only [safeSizeTAddition_of_le h1, gt_iff_lt, h2, if_true]
  · intro h1 h2
    refine ⟨_, getBytes_of_inBounds h offset n h1 h2, ?_, ?_⟩
    · simp only [List.length_take, List.length_drop]; omega
    · intro k hk
      rw [List.getElem?_take, if_pos hk, List.getElem?_drop]
  · intro hrep hle
    rw [getBytes_of_inBounds h offset 0 (by omega) (by omega)]
    simp

/-- Instances of `getBytes_spec` on `Heap(16)`: an empty read at the very end,
an out-of-bounds read, an overflowing one and a read of four bytes. -/
theorem getBytes_spec_witness :
    (Heap.sized 16).getBytes 16 0 = .returned []
      ∧ (Heap.sized 16).getBytes 13 4 = .threw .OutOfBounds
      ∧ (Heap.sized 16).getBytes SIZE_MAX 1 = .threw .OverFlowInHeapAccess
      ∧ ∃ bs, (Heap.sized 16).getBytes 4 4 = .returned bs ∧ bs.length = 4
          ∧ ∀ k, k < 4 → bs[k]? = (Heap.sized 16).data_[4 + k]? :=
  ⟨(getBytes_spec (Heap.sized 16) 16 0).2.2.2 (by unfold Heap.representable; decide)
      (by decide),
    (getBytes_spec (Heap.sized 16) 13 4).2.1 (by decide) (by decide),
    (getBytes_spec (Heap.sized 16) SIZE_MAX 1).1 (by decide),
    (getBytes_spec (Heap.sized 16) 4 4).2.2.1 (by decide) (by decide)⟩

theorem setBytes_of_inBounds (h : Heap) (offset : Nat) (bytes : List Byte)
    (h1 : offset + bytes.length ≤ SIZE_MAX) (h2 : offset + bytes.length ≤ h.data_.length) :
    h.setBytes offset bytes =
      ⟨.returned (), { h with data_ := writeAt h.data_ offset bytes }, []⟩ := by
  unfold Heap.setBytes
  simp only [safeSizeTAddition_of_le h1, gt_iff_lt, Nat.not_lt.mpr h2, if_false,
    sizeAdd_of_le h1, Nat.add_sub_cancel_left]
  congr 2
  apply List.ext_getElem?
  intro k
  rw [getElem?_writeLoop (fun i => bytes.getD (i - offset) 0)]
  by_cases hin : offset ≤ k ∧ k < offset + bytes.length ∧ k < h.data_.length
  · rw [if_pos hin]
    have hk : k = offset + (k - offset) := by omega
    have hlt : k - offset < bytes.length := by omega
    conv_rhs => rw [hk]
    rw [getElem?_writeAt_inside h2 hlt, List.getD_eq_getElem?_getD,
      List.getElem?_eq_getElem hlt]
    simp
  · rw [if_neg hin]
    exact (getElem?_writeAt_outside h2 (by omega)).symm

/-- C7: `setBytes(offset, bs)` throws `OverFlowInHeapAccess` when
`offset + len(bs)` overflows and `OutOfBounds` when it does not overflow but
exceeds the size, leaving the heap unchanged in both cases; otherwise it
succeeds, `getBytes(offset, len(bs))` then returns `bs`, the size is unchanged
and so is every byte outside `[offset, offset + len(bs))`. -/
theorem setBytes_spec (h : Heap) (offset : Nat) (bs : List Byte) :
    (SIZE_MAX < offset + bs.length →
        h.setBytes offset bs = ⟨.threw .OverFlowInHeapAccess, h, []⟩)
      ∧ (offset + bs.length ≤ SIZE_MAX → h.size < offset + bs.length →
          h.setBytes offset bs = ⟨.threw .OutOfBounds, h, []⟩)
      ∧ (offset + bs.length ≤ SIZE_MAX → offset + bs.length ≤ h.size →
          (h.setBytes offset bs).ret = .returned ()
          ∧ (h.setBytes offset bs).heap.getBytes offset bs.length = .returned bs
          ∧ (h.setBytes offset bs).heap.size = h.size
          ∧ (∀ i, i < offset ∨ offset + bs.length ≤ i →
              (h.setBytes offset bs).heap.data_[i]? = h.data_[i]?)
          ∧ (h.setBytes offset bs).heap.observer_ = h.observer_) := by
  unfold Heap.size
  refine ⟨?_, ?_, ?_⟩
  · intro hov
    unfold Heap.setBytes
    rw [safeSizeTAddition_eq_none.mpr hov]
  · intro h1 h2
    unfold Heap.setBytes
    simp only [safeSizeTAddition_of_le h1, gt_iff_lt, h2, if_true]
  · intro h1 h2
    rw [setBytes_of_inBounds h offset bs h1 h2]
    refine ⟨rfl, ?_, ?_, ?_, rfl⟩
    · rw [getBytes_of_inBounds _ offset bs.length h1
        (by simp only [length_writeAt h2]; exact h2)]
      simp only [drop_take_writeAt h2]
    · simp only [length_writeAt h2]
    · intro i hi
      exact getElem?_writeAt_outside h2 hi

/-- Instances of `setBytes_spec` on `Heap(8)`: a write of three bytes at offset
2, an out-of-bounds write and an overflowing one. -/
theorem setBytes_spec_witness :
    ((Heap.sized 8).setBytes 2 [7, 8, 9]).heap.data_ = [0, 0, 7, 8, 9, 0, 0, 0]
      ∧ (Heap.sized 8).setBytes 6 [7, 8, 9] = ⟨.threw .OutOfBounds, Heap.sized 8, []⟩
      ∧ (Heap.sized 8).setBytes SIZE_MAX [7, 8, 9]
          = ⟨.threw .OverFlowInHeapAccess, Heap.sized 8, []⟩
      ∧ ((Heap.sized 8).setBytes 2 [7, 8, 9]).ret = .returned ()
      ∧ ((Heap.sized 8).setBytes 2 [7, 8, 9]).heap.getBytes 2 3 = .returned [7, 8, 9] :=
  ⟨by decide,
    (setBytes_spec (Heap.sized 8) 6 [7, 8, 9]).2.1 (by decide) (by decide),
    (setBytes_spec (Heap.sized 8) SIZE_MAX [7, 8, 9]).1 (by decide),
    ((setBytes_spec (Heap.sized 8) 2 [7, 8, 9]).2.2 (by decide) (by decide)).1,
    ((setBytes_spec (Heap.sized 8) 2 [7, 8, 9]).2.2 (by decide) (by decide)).2.1⟩

/-! ## Typed access with a static offset -/

theorem setStaticOffset_eq_set (h : Heap) (order : ByteOrder) (s staticOffset off v : Nat) :
    h.setStaticOffset order s staticOffset off v = h.set order s (off + staticOffset) v := by
  by_cases hb : off + staticOffset + s ≤ SIZE_MAX ∧ off + staticOffset + s ≤ h.data_.length
  · obtain ⟨h1, h2⟩ := hb
    rw [set_of_inBounds h order s (off + staticOffset) v h1 h2]
    unfold Heap.setStaticOffset
    have e1 : safeSizeTAddition off s = some (off + s) :=
      safeSizeTAddition_of_le (by omega)
    have e2 : safeSizeTAddition staticOffset (off + s) = some (staticOffset + (off + s)) :=
      safeSizeTAddition_of_le (by omega)
    have e3 : ¬ (staticOffset + (off + s) > h.data_.length) := by omega
    have e4 : sizeAdd off staticOffset = off + staticOffset := sizeAdd_of_le (by omega)
    simp only [e1, e2, e3, if_false, e4, sizeAdd_of_le h1, memcpyInto, Interval.withEnd]
  · rw [set_of_outOfBounds h order s (off + staticOffset) v (by omega)]
    unfold Heap.setStaticOffset
    by_cases ha : SIZE_MAX < off + s
    · rw [safeSizeTAddition_eq_none.mpr ha]
    · simp only [safeSizeTAddition_of_le (Nat.le_of_not_lt ha)]
      by_cases hc : SIZE_MAX < staticOffset + (off + s)
      · rw [safeSizeTAddition_eq_none.mpr hc]
      · simp only [safeSizeTAddition_of_le (Nat.le_of_not_lt hc)]
        have : staticOffset + (off + s) > h.data_.length := by omega
        simp only [this, if_true]

theorem getStaticOffset_eq_get (h : Heap) (order : ByteOrder) (s off staticOffset out : Nat) :
    h.getStaticOffset order s off staticOffset out = h.get order s (off + staticOffset) out := by
  by_cases hb : off + staticOffset + s ≤ SIZE_MAX ∧ off + staticOffset + s ≤ h.data_.length
  · obtain ⟨h1, h2⟩ := hb
    rw [get_of_inBounds h order s (off + staticOffset) out h1 h2]
    unfold Heap.getStaticOffset
    have e1 : safeSizeTAddition off s = some (off + s) :=
      safeSizeTAddition_of_le (by omega)
    have e2 : safeSizeTAddition staticOffset (off + s) = some (staticOffset + (off + s)) :=
      safeSizeTAddition_of_le (by omega)
    have e3 : ¬ (staticOffset + (off + s) > h.data_.length) := by omega
    have e4 : sizeAdd off staticOffset = off + staticOffset := sizeAdd_of_le (by omega)
    simp only [e1, e2, e3, if_false, e4, memcpyFrom]
  · rw [get_of_outOfBounds h order s (off + staticOffset) out (by omega)]
    unfold Heap.getStaticOffset
    by_cases ha : SIZE_MAX < off + s
    · rw [safeSizeTAddition_eq_none.mpr ha]
    · simp only [safeSizeTAddition_of_le (Nat.le_of_not_lt ha)]
      by_cases hc : SIZE_MAX < staticOffset + (off + s)
      · rw [safeSizeTAddition_eq_none.mpr hc]
      · simp only [safeSizeTAddition_of_le (Nat.le_of_not_lt hc)]
        have : staticOffset + (off + s) > h.data_.length := by omega
        simp only [this, if_true]

/-- C8: `setStaticOffset<T>` and `getStaticOffset<T>` return true exactly when
`offset + staticOffset + sizeof(T)`, over unbounded integers, is at most the
heap size; they are the calls `set<T>` / `get<T>` at the exact (unwrapped)
address `offset + staticOffset`, which on success fits the size type; on
failure the heap and `*value` are unchanged. -/
theorem staticOffset_spec (h : Heap) (hrep : h.representable)
    (order : ByteOrder) (s staticOffset off v out : Nat) :
    ((h.setStaticOffset order s staticOffset off v).ret = true
        ↔ off + staticOffset + s ≤ h.size)
      ∧ ((h.getStaticOffset order s off staticOffset out).1 = true
        ↔ off + staticOffset + s ≤ h.size)
      ∧ h.setStaticOffset order s staticOffset off v = h.set order s (off + staticOffset) v
      ∧ h.getStaticOffset order s off staticOffset out
          = h.get order s (off + staticOffset) out
      ∧ (off + staticOffset + s ≤ h.size → sizeAdd off staticOffset = off + staticOffset)
      ∧ ((h.setStaticOffset order s staticOffset off v).ret = false →
          h.setStaticOffset order s staticOffset off v = ⟨false, h, []⟩)
      ∧ ((h.getStaticOffset order s off staticOffset out).1 = false →
          (h.getStaticOffset order s off staticOffset out).2 = out) := by
  have hc := typed_access_iff_size h hrep order s (off + staticOffset) v out
  rw [setStaticOffset_eq_set, getStaticOffset_eq_get]
  refine ⟨hc.1, hc.2, rfl, rfl, ?_, set_of_ret_false h order s (off + staticOffset) v,
    get_of_ret_false h order s (off + staticOffset) out⟩
  intro hle
  unfold Heap.representable at hrep
  unfold Heap.size at hle
  exact sizeAdd_of_le (by omega)

/-- Instances of `staticOffset_spec` on `Heap(16)`: a write at `8 + 4`, and the
wrapping pair `offset = SIZE_MAX`, `staticOffset = 1`, which fails although a
plain `set` at the wrapped address `0` would succeed. -/
theorem staticOffset_spec_witness :
    (Heap.sized 16).representable
      ∧ ((Heap.sized 16).setStaticOffset .little 4 4 8 0xDEADBEEF).heap.data_
          = [0, 0, 0, 0, 0, 0, 0, 0, 0, 0, 0, 0, 0xEF, 0xBE, 0xAD, 0xDE]
      ∧ (Heap.sized 16).setStaticOffset .little 4 4 8 0xDEADBEEF
          = (Heap.sized 16).set .little 4 (8 + 4) 0xDEADBEEF
      ∧ ((Heap.sized 16).setStaticOffset .little 4 1 SIZE_MAX 0xDEADBEEF).ret = false
      ∧ ((Heap.sized 16).set .little 4 (sizeAdd SIZE_MAX 1) 0xDEADBEEF).ret = true
      ∧ (Heap.sized 16).setStaticOffset .little 4 1 SIZE_MAX 0xDEADBEEF
          = ⟨false, Heap.sized 16, []⟩ := by
  have hrep : (Heap.sized 16).representable := by
    unfold Heap.representable; decide
  have hf : ((Heap.sized 16).setStaticOffset .little 4 1 SIZE_MAX 0xDEADBEEF).ret = false := by
    decide
  exact ⟨hrep, by decide,
    (staticOffset_spec (Heap.sized 16) hrep .little 4 4 8 0xDEADBEEF 0).2.2.1,
    hf, by decide,
    (staticOffset_spec (Heap.sized 16) hrep .little 4 1 SIZE_MAX 0xDEADBEEF 0).2.2.2.2.2.1 hf⟩

/-! ## Observer -/

/-- C9: on a heap with an attached observer, a typed `set<T>(off, v)` that
returns true makes exactly one `preChanged` call, on that observer, with the
interval `[off, off + sizeof(T))` and with the heap as it was before the write;
a `set` that returns false makes no call. -/
theorem set_notifies_observer (h : Heap) (o : ObserverPtr) (hobs : h.observer_ = some o)
    (order : ByteOrder) (s off v : Nat) :
    ((h.set order s off v).ret = true →
        (h.set order s off v).calls = [⟨o, h, ⟨off, off + s⟩⟩]
        ∧ (h.set order s off v).heap.data_ = writeAt h.data_ off (objectRepr order s v))
      ∧ ((h.set order s off v).ret = false → (h.set order s off v).calls = []) := by
  constructor
  · intro hr
    obtain ⟨h1, h2⟩ := (set_ret_iff h order s off v).mp hr
    rw [set_of_inBounds h order s off v h1 h2]
    simp only [hobs, and_self]
  · intro hr
    rw [set_of_ret_false h order s off v hr]

/-- An instance of `set_notifies_observer`: observer `7` attached to `Heap(8)`
sees one call for `set<uint32>(2, 0xDEADBEEF)`, with interval `[2, 6)` and a
heap whose bytes are still all zero, and no call for the failing
`set<uint32>(5, 0xDEADBEEF)`. -/
theorem set_notifies_observer_witness :
    (⟨List.replicate 8 0, some 7⟩ : Heap).observer_ = some 7
      ∧ ((⟨List.replicate 8 0, some 7⟩ : Heap).set .little 4 2 0xDEADBEEF).calls
          = [⟨7, ⟨[0, 0, 0, 0, 0, 0, 0, 0], some 7⟩, ⟨2, 6⟩⟩]
      ∧ ((⟨List.replicate 8 0, some 7⟩ : Heap).set .little 4 2 0xDEADBEEF).heap.data_
          = [0, 0, 0xEF, 0xBE, 0xAD, 0xDE, 0, 0]
      ∧ ((⟨List.replicate 8 0, some 7⟩ : Heap).set .little 4 5 0xDEADBEEF).calls = [] :=
  ⟨rfl,
    ((set_notifies_observer ⟨List.replicate 8 0, some 7⟩ 7 rfl .little 4 2 0xDEADBEEF).1
      (by decide)).1,
    by decide,
    (set_notifies_observer ⟨List.replicate 8 0, some 7⟩ 7 rfl .little 4 5 0xDEADBEEF).2
      (by decide)⟩

/-- C10: `attachObserver(o)` throws `OnlyOneObserverSupported` exactly when an
observer is already attached, and then observer and bytes are unchanged; with no
observer attached it succeeds and `o` becomes the observer; after
`removeObserver()` a following `attachObserver` succeeds. -/
theorem attachObserver_spec (h : Heap) (o : ObserverPtr) :
    ((h.attachObserver o).ret = .threw .OnlyOneObserverSupported ↔ h.observer_ ≠ none)
      ∧ ((h.attachObserver o).ret = .returned () ↔ h.observer_ = none)
      ∧ (h.observer_ ≠ none →
          h.attachObserver o = ⟨.threw .OnlyOneObserverSupported, h, []⟩)
      ∧ (h.observer_ = none →
          h.attachObserver o = ⟨.returned (), ⟨h.data_, some o⟩, []⟩)
      ∧ h.removeObserver.attachObserver o = ⟨.returned (), ⟨h.data_, some o⟩, []⟩ := by
  refine ⟨?_, ?_, ?_, ?_, ?_⟩
  · cases hobs : h.observer_ <;> simp [Heap.attachObserver, hobs]
  · cases hobs : h.observer_ <;> simp [Heap.attachObserver, hobs]
  · intro hne
    cases hobs : h.observer_ with
    | none => exact absurd hobs hne
    | some p => simp [Heap.attachObserver, hobs]
  · intro hobs
    simp [Heap.attachObserver, hobs]
  · simp [Heap.attachObserver, Heap.removeObserver]

/-- The observer scenario of the specification: attaching one observer
succeeds, attaching a second throws `OnlyOneObserverSupported`, and after
`removeObserver` a second attach succeeds. -/
theorem attachObserver_spec_witness :
    ((Heap.sized 4).attachObserver 1).ret = .returned ()
      ∧ ((Heap.sized 4).attachObserver 1).heap.attachObserver 2
          = ⟨.threw .OnlyOneObserverSupported, ((Heap.sized 4).attachObserver 1).heap, []⟩
      ∧ ((Heap.sized 4).attachObserver 1).heap.removeObserver.attachObserver 2
          = ⟨.returned (), ⟨((Heap.sized 4).attachObserver 1).heap.data_, some 2⟩, []⟩ :=
  ⟨(attachObserver_spec (Heap.sized 4) 1).2.1.mpr (by decide),
    (attachObserver_spec ((Heap.sized 4).attachObserver 1).heap 2).2.2.1 (by decide),
    (attachObserver_spec ((Heap.sized 4).attachObserver 1).heap 2).2.2.2.2⟩

/-! ## VMState: single steps -/

/-- C11: `step()` advances the instruction counter by exactly one in every
case; on a finished thread it returns false and leaves heap and thread
unchanged; otherwise it applies `thread.step(heap)` once and returns true. -/
theorem step_spec {T : Type} (ops : VMThread T) (s : VMState T) :
    (VMState.step ops s).2.instructionCounter_ = s.instructionCounter_ + 1
      ∧ (ops.finished s.thread_ = true →
          (VMState.step ops s).1 = false
          ∧ (VMState.step ops s).2.heap_ = s.heap_
          ∧ (VMState.step ops s).2.thread_ = s.thread_)
      ∧ (ops.finished s.thread_ = false →
          (VMState.step ops s).1 = true
          ∧ ((VMState.step ops s).2.thread_, (VMState.step ops s).2.heap_)
              = ops.step s.thread_ s.heap_) := by
  unfold VMState.step
  cases hfin : ops.finished s.thread_ <;> simp [hfin]

/-- Instances of `step_spec` with the sample thread: a step of a running thread
increments the cell, a step of a finished thread only advances the counter. -/
theorem step_spec_witness :
    VMState.step (cellThread 0) ⟨Heap.sized 4, 5, 2⟩
        = (true, ⟨⟨[1, 0, 0, 0], none⟩, 6, 1⟩)
      ∧ VMState.step (cellThread 0) ⟨Heap.sized 4, 5, 0⟩
        = (false, ⟨Heap.sized 4, 6, 0⟩)
      ∧ ((VMState.step (cellThread 0) ⟨Heap.sized 4, 5, 0⟩).1 = false
        ∧ (VMState.step (cellThread 0) ⟨Heap.sized 4, 5, 0⟩).2.heap_ = Heap.sized 4
        ∧ (VMState.step (cellThread 0) ⟨Heap.sized 4, 5, 0⟩).2.thread_ = 0) :=
  ⟨by decide, by decide,
    (step_spec (cellThread 0) ⟨Heap.sized 4, 5, 0⟩).2.1 (by decide)⟩

/-- C12, as stated, fails: on a running thread whose `stepDebug` reports no
breakpoint, `VMState::stepDebug()` still returns true. -/
theorem stepDebug_ignores_breakpoint :
    (cellThread 0).finished 3 = false
      ∧ ((cellThread 0).stepDebug 3 (Heap.sized 4)).1 = false
      ∧ (VMState.stepDebug (cellThread 0) ⟨Heap.sized 4, 0, 3⟩).1 = true
      ∧ ¬ ((VMState.stepDebug (cellThread 0) ⟨Heap.sized 4, 0, 3⟩).1 = true ↔
          ((cellThread 0).finished 3 = false
            ∧ ((cellThread 0).stepDebug 3 (Heap.sized 4)).1 = true)) := by
  decide

/-- C12, amended: the boolean returned by `VMState::stepDebug()` is true
exactly when the thread was not finished, whatever `thread.stepDebug(heap)`
returned; the state is the one `thread.stepDebug(heap)` leaves, with the counter
advanced by one. -/
theorem stepDebug_spec {T : Type} (ops : VMThread T) (s : VMState T) :
    ((VMState.stepDebug ops s).1 = true ↔ ops.finished s.thread_ = false)
      ∧ (VMState.stepDebug ops s).2.instructionCounter_ = s.instructionCounter_ + 1
      ∧ (ops.finished s.thread_ = true →
          (VMState.stepDebug ops s).2.heap_ = s.heap_
          ∧ (VMState.stepDebug ops s).2.thread_ = s.thread_)
      ∧ (ops.finished s.thread_ = false →
          ((VMState.stepDebug ops s).2.thread_, (VMState.stepDebug ops s).2.heap_)
              = (ops.stepDebug s.thread_ s.heap_).2) := by
  unfold VMState.stepDebug
  cases hfin : ops.finished s.thread_ <;> simp [hfin]

/-- Instances of `stepDebug_spec` with the sample thread, with and without a
breakpoint on the instruction, and on a finished thread. -/
theorem stepDebug_spec_witness :
    (VMState.stepDebug (cellThread 3) ⟨Heap.sized 4, 0, 3⟩).1 = true
      ∧ (VMState.stepDebug (cellThread 0) ⟨Heap.sized 4, 0, 3⟩).1 = true
      ∧ (VMState.stepDebug (cellThread 0) ⟨Heap.sized 4, 0, 0⟩).1 = false
      ∧ ((VMState.stepDebug (cellThread 0) ⟨Heap.sized 4, 0, 3⟩).2.thread_,
          (VMState.stepDebug (cellThread 0) ⟨Heap.sized 4, 0, 3⟩).2.heap_)
            = ((cellThread 0).stepDebug 3 (Heap.sized 4)).2 :=
  ⟨by decide,
    (stepDebug_spec (cellThread 0) ⟨Heap.sized 4, 0, 3⟩).1.mpr (by decide),
    by decide,
    (stepDebug_spec (cellThread 0) ⟨Heap.sized 4, 0, 3⟩).2.2.2 (by decide)⟩

/-! ## VMState: running until the thread finishes -/

theorem plainLoop_of_finished {T : Type} (ops : VMThread T) (f : Nat) (s : VMState T)
    (hfin : ops.finished s.thread_ = true) : VMState.plainLoop ops f s = some s := by
  cases f <;> simp [VMState.plainLoop, hfin]

theorem debugLoop_of_finished {T : Type} (ops : VMThread T) (f : Nat) (s : VMState T)
    (hfin : ops.finished s.thread_ = true) : VMState.debugLoop ops f s = some s := by
  cases f <;> simp [VMState.debugLoop, hfin]

/-- The first `n` iterations of the plain loop, when the thread is not finished
before any of them. -/
theorem plainLoop_first_iterations {T : Type} (ops : VMThread T) (n f : Nat) (s : VMState T)
    (hrun : ∀ j, j < n → ops.finished (threadRun ops j (s.thread_, s.heap_)).1 = false) :
    VMState.plainLoop ops (f + n) s =
      VMState.plainLoop ops f
        ⟨(threadRun ops n (s.thread_, s.heap_)).2, s.instructionCounter_ + n,
          (threadRun ops n (s.thread_, s.heap_)).1⟩ := by
  induction n generalizing s with
  | zero => rfl
  | succ n ih =>
    have h0 : ops.finished s.thread_ = false := hrun 0 (Nat.succ_pos n)
    have hstep : VMState.plainLoop ops (f + n + 1) s =
        VMState.plainLoop ops (f + n)
          ⟨(ops.step s.thread_ s.heap_).2, s.instructionCounter_ + 1,
            (ops.step s.thread_ s.heap_).1⟩ := by
      simp [VMState.plainLoop, h0]
    rw [show f + (n + 1) = f + n + 1 from rfl, hstep, ih]
    · simp only [threadRun, Nat.add_assoc, Nat.add_comm 1 n]
    · intro j hj
      exact hrun (j + 1) (Nat.succ_lt_succ hj)

/-- The calls of `step()` that correspond to the first `n` loop iterations. -/
theorem stepTimes_first_calls {T : Type} (ops : VMThread T) (n : Nat) (s : VMState T)
    (hrun : ∀ j, j < n → ops.finished (threadRun ops j (s.thread_, s.heap_)).1 = false) :
    VMState.stepTimes ops n s =
      ⟨(threadRun ops n (s.thread_, s.heap_)).2, s.instructionCounter_ + n,
        (threadRun ops n (s.thread_, s.heap_)).1⟩ := by
  induction n generalizing s with
  | zero => rfl
  | succ n ih =>
    have h0 : ops.finished s.thread_ = false := hrun 0 (Nat.succ_pos n)
    have hstep : (VMState.step ops s).2 =
        ⟨(ops.step s.thread_ s.heap_).2, s.instructionCounter_ + 1,
          (ops.step s.thread_ s.heap_).1⟩ := by
      simp [VMState.step, h0]
    rw [VMState.stepTimes, hstep, ih]
    · simp only [threadRun, Nat.add_assoc, Nat.add_comm 1 n]
    · intro j hj
      exact hrun (j + 1) (Nat.succ_lt_succ hj)

/-- The first `n` iterations of the breakpoint-checking loop, when the thread
is not finished before any of them and none reports a breakpoint. -/
theorem debugLoop_first_iterations {T : Type} (ops : VMThread T) (n f : Nat) (s : VMState T)
    (hrun : ∀ j, j < n → ops.finished (debugRun ops j (s.thread_, s.heap_)).1 = false)
    (hquiet : ∀ j, j < n → debugHit ops j (s.thread_, s.heap_) = false) :
    VMState.debugLoop ops (f + n) s =
      VMState.debugLoop ops f
        ⟨(debugRun ops n (s.thread_, s.heap_)).2, s.instructionCounter_ + n,
          (debugRun ops n (s.thread_, s.heap_)).1⟩ := by
  induction n generalizing s with
  | zero => rfl
  | succ n ih =>
    have h0 : ops.finished s.thread_ = false := hrun 0 (Nat.succ_pos n)
    have hq : (ops.stepDebug s.thread_ s.heap_).1 = false := hquiet 0 (Nat.succ_pos n)
    have hstep : VMState.debugLoop ops (f + n + 1) s =
        VMState.debugLoop ops (f + n)
          ⟨(ops.stepDebug s.thread_ s.heap_).2.2, s.instructionCounter_ + 1,
            (ops.stepDebug s.thread_ s.heap_).2.1⟩ := by
      simp [VMState.debugLoop, h0, hq]
    rw [show f + (n + 1) = f + n + 1 from rfl, hstep, ih]
    · simp only [debugRun, Nat.add_assoc, Nat.add_comm 1 n]
    · intro j hj
      exact hrun (j + 1) (Nat.succ_lt_succ hj)
    · intro j hj
      exact hquiet (j + 1) (Nat.succ_lt_succ hj)

/-- An iteration of the breakpoint-checking loop that reports a breakpoint ends
the loop. -/
theorem debugLoop_of_hit {T : Type} (ops : VMThread T) (f : Nat) (s : VMState T)
    (hfin : ops.finished s.thread_ = false)
    (hhit : (ops.stepDebug s.thread_ s.heap_).1 = true) :
    VMState.debugLoop ops (f + 1) s =
      some ⟨(ops.stepDebug s.thread_ s.heap_).2.2, s.instructionCounter_ + 1,
        (ops.stepDebug s.thread_ s.heap_).2.1⟩ := by
  simp [VMState.debugLoop, hfin, hhit]

theorem debugRun_succ_last {T : Type} (ops : VMThread T) (n : Nat) (p : T × Heap) :
    debugRun ops (n + 1) p =
      (ops.stepDebug (debugRun ops n p).1 (debugRun ops n p).2).2 := by
  induction n generalizing p with
  | zero => rfl
  | succ n ih =>
    rw [debugRun, ih]
    rfl

/-- C13: when the thread becomes finished after exactly `k` applications of
`thread.step`, `stepUntilFinished(false)` (with at least `k` iterations allowed)
ends in the state those `k` thread steps reach, with the thread finished and the
counter advanced by exactly `k`; this is also the state after `k` calls of
`step()`. -/
theorem stepUntilFinished_plain_spec {T : Type} (ops : VMThread T) (s : VMState T)
    (k fuel : Nat) (hfuel : k ≤ fuel)
    (hrun : ∀ j, j < k → ops.finished (threadRun ops j (s.thread_, s.heap_)).1 = false)
    (hfin : ops.finished (threadRun ops k (s.thread_, s.heap_)).1 = true) :
    VMState.stepUntilFinished ops false fuel s =
        some ⟨(threadRun ops k (s.thread_, s.heap_)).2, s.instructionCounter_ + k,
          (threadRun ops k (s.thread_, s.heap_)).1⟩
      ∧ VMState.stepUntilFinished ops false fuel s = some (VMState.stepTimes ops k s)
      ∧ ops.finished (VMState.stepTimes ops k s).thread_ = true := by
  obtain ⟨f, rfl⟩ : ∃ f, fuel = f + k := ⟨fuel - k, by omega⟩
  have hloop : VMState.stepUntilFinished ops false (f + k) s =
      some ⟨(threadRun ops k (s.thread_, s.heap_)).2, s.instructionCounter_ + k,
        (threadRun ops k (s.thread_, s.heap_)).1⟩ := by
    unfold VMState.stepUntilFinished
    simp only [Bool.false_eq_true, if_false]
    rw [plainLoop_first_iterations ops k f s hrun]
    exact plainLoop_of_finished ops f _ hfin
  rw [stepTimes_first_calls ops k s hrun]
  exact ⟨hloop, hloop, hfin⟩

/-- The step-loop scenario of the specification: a thread that increments a
memory cell ten times and halts; afterwards the cell holds 10 and the counter
has advanced by 10. The second part is a thread that is already finished. -/
theorem stepUntilFinished_plain_spec_witness :
    (VMState.stepUntilFinished (cellThread 0) false 10 ⟨Heap.sized 4, 0, 10⟩ =
        some ⟨(threadRun (cellThread 0) 10 (10, Heap.sized 4)).2, 0 + 10,
          (threadRun (cellThread 0) 10 (10, Heap.sized 4)).1⟩
      ∧ VMState.stepUntilFinished (cellThread 0) false 10 ⟨Heap.sized 4, 0, 10⟩ =
        some (VMState.stepTimes (cellThread 0) 10 ⟨Heap.sized 4, 0, 10⟩)
      ∧ (cellThread 0).finished
          (VMState.stepTimes (cellThread 0) 10 ⟨Heap.sized 4, 0, 10⟩).thread_ = true)
      ∧ VMState.stepUntilFinished (cellThread 0) false 10 ⟨Heap.sized 4, 0, 10⟩ =
        some ⟨⟨[10, 0, 0, 0], none⟩, 10, 0⟩
      ∧ VMState.stepUntilFinished (cellThread 0) false 10 ⟨Heap.sized 4, 7, 0⟩ =
        some ⟨Heap.sized 4, 7, 0⟩ :=
  ⟨stepUntilFinished_plain_spec (cellThread 0) ⟨Heap.sized 4, 0, 10⟩ 10 10 (Nat.le_refl _)
      (by decide) (by decide),
    by decide, by decide⟩

/-- C14: when the thread is not finished before any of its first `j` debug
steps and the `j`-th is the first to report a breakpoint, `stepUntilFinished(true)`
stops right after that step, with exactly `j` debug steps run and the counter
advanced by `j`; when no debug step reports a breakpoint before the thread
finishes after `k` steps, it runs exactly `k` debug steps and ends with the
thread finished. -/
theorem stepUntilFinished_debug_spec {T : Type} (ops : VMThread T) (s : VMState T) :
    (∀ j fuel, 1 ≤ j → j ≤ fuel →
        (∀ i, i < j → ops.finished (debugRun ops i (s.thread_, s.heap_)).1 = false) →
        (∀ i, i < j - 1 → debugHit ops i (s.thread_, s.heap_) = false) →
        debugHit ops (j - 1) (s.thread_, s.heap_) = true →
        VMState.stepUntilFinished ops true fuel s =
          some ⟨(debugRun ops j (s.thread_, s.heap_)).2, s.instructionCounter_ + j,
            (debugRun ops j (s.thread_, s.heap_)).1⟩)
      ∧ (∀ k fuel, k ≤ fuel →
        (∀ i, i < k → ops.finished (debugRun ops i (s.thread_, s.heap_)).1 = false) →
        (∀ i, i < k → debugHit ops i (s.thread_, s.heap_) = false) →
        ops.finished (debugRun ops k (s.thread_, s.heap_)).1 = true →
        VMState.stepUntilFinished ops true fuel s =
          some ⟨(debugRun ops k (s.thread_, s.heap_)).2, s.instructionCounter_ + k,
            (debugRun ops k (s.thread_, s.heap_)).1⟩) := by
  constructor
  · intro j fuel hj hfuel hrun hquiet hhit
    obtain ⟨n, rfl⟩ : ∃ n, j = n + 1 := ⟨j - 1, by omega⟩
    obtain ⟨f, rfl⟩ : ∃ f, fuel = f + 1 + n := ⟨fuel - (n + 1), by omega⟩
    unfold VMState.stepUntilFinished
    simp only [if_true]
    rw [debugLoop_first_iterations ops n (f + 1) s (fun i hi => hrun i (by omega))
      (fun i hi => hquiet i (by omega))]
    have hhit1 : debugHit ops n (s.thread_, s.heap_) = true := hhit
    rw [debugLoop_of_hit ops f
      ⟨(debugRun ops n (s.thread_, s.heap_)).2, s.instructionCounter_ + n,
        (debugRun ops n (s.thread_, s.heap_)).1⟩ (hrun n (by omega)) hhit1,
      debugRun_succ_last]
    rfl
  · intro k fuel hfuel hrun hquiet hfin
    obtain ⟨f, rfl⟩ : ∃ f, fuel = f + k := ⟨fuel - k, by omega⟩
    unfold VMState.stepUntilFinished
    simp only [if_true]
    rw [debugLoop_first_iterations ops k f s hrun hquiet]
    exact debugLoop_of_finished ops f _ hfin

/-- Instances of `stepUntilFinished_debug_spec` with the sample thread started
with ten instructions left: a breakpoint on the instruction run with seven left
stops the loop after four debug steps; without a breakpoint all ten run. -/
theorem stepUntilFinished_debug_spec_witness :
    VMState.stepUntilFinished (cellThread 7) true 10 ⟨Heap.sized 4, 0, 10⟩ =
        some ⟨⟨[4, 0, 0, 0], none⟩, 4, 6⟩
      ∧ VMState.stepUntilFinished (cellThread 7) true 10 ⟨Heap.sized 4, 0, 10⟩ =
        some ⟨(debugRun (cellThread 7) 4 (10, Heap.sized 4)).2, 0 + 4,
          (debugRun (cellThread 7) 4 (10, Heap.sized 4)).1⟩
      ∧ VMState.stepUntilFinished (cellThread 0) true 10 ⟨Heap.sized 4, 0, 10⟩ =
        some ⟨(debugRun (cellThread 0) 10 (10, Heap.sized 4)).2, 0 + 10,
          (debugRun (cellThread 0) 10 (10, Heap.sized 4)).1⟩
      ∧ VMState.stepUntilFinished (cellThread 0) true 10 ⟨Heap.sized 4, 0, 10⟩ =
        some ⟨⟨[10, 0, 0, 0], none⟩, 10, 0⟩ :=
  ⟨by decide,
    (stepUntilFinished_debug_spec (cellThread 7) ⟨Heap.sized 4, 0, 10⟩).1 4 10
      (by decide) (by decide) (by decide) (by decide) (by decide),
    (stepUntilFinished_debug_spec (cellThread 0) ⟨Heap.sized 4, 0, 10⟩).2 10 10
      (by decide) (by decide) (by decide) (by decide),
    by decide⟩

/-! ## VMState: binding a module -/

/-- C15: `useModule(m)` leaves the state unchanged when `m`'s `startSize` is 0;
with a non-zero `startSize` and an empty current heap, the heap becomes the one
constructed from `m`'s heap data, thread and counter unchanged; with a non-zero
`startSize` and a non-empty current heap it throws the domain error and leaves
the state unchanged. -/
theorem useModule_spec {T : Type} (s : VMState T) (m : Module) :
    (m.heapData.startSize = 0 → s.useModule m = some (.returned s))
      ∧ (m.heapData.startSize ≠ 0 → s.heap_.size = 0 →
          s.useModule m = (Heap.fromHeapData m.heapData).map
            (fun h => .returned ⟨h, s.instructionCounter_, s.thread_⟩))
      ∧ (m.heapData.startSize ≠ 0 → s.heap_.size ≠ 0 →
          s.useModule m = some (.domain_error s)) := by
  refine ⟨?_, ?_, ?_⟩
  · intro h0
    simp [VMState.useModule, h0]
  · intro h0 hs
    unfold VMState.useModule
    simp only [h0, hs, ne_eq, not_false_eq_true, if_true]
    cases Heap.fromHeapData m.heapData <;> rfl
  · intro h0 hs
    simp [VMState.useModule, h0, hs]

/-- Instances of `useModule_spec`: a module without heap, the module of the
segment scenario bound to a fresh state, and the same module offered again. -/
theorem useModule_spec_witness :
    (⟨Heap.sized 4, 3, 5⟩ : VMState Nat).useModule ⟨⟨0, []⟩⟩
        = some (.returned ⟨Heap.sized 4, 3, 5⟩)
      ∧ (⟨Heap.empty, 3, 5⟩ : VMState Nat).useModule ⟨⟨16, [⟨4, [1, 2, 3, 4]⟩]⟩⟩
        = some (.returned
            ⟨⟨[0, 0, 0, 0, 1, 2, 3, 4, 0, 0, 0, 0, 0, 0, 0, 0], none⟩, 3, 5⟩)
      ∧ (⟨Heap.empty, 3, 5⟩ : VMState Nat).useModule ⟨⟨16, [⟨4, [1, 2, 3, 4]⟩]⟩⟩
        = (Heap.fromHeapData ⟨16, [⟨4, [1, 2, 3, 4]⟩]⟩).map
            (fun h => .returned ⟨h, 3, 5⟩)
      ∧ (⟨Heap.sized 4, 3, 5⟩ : VMState Nat).useModule ⟨⟨16, [⟨4, [1, 2, 3, 4]⟩]⟩⟩
        = some (.domain_error ⟨Heap.sized 4, 3, 5⟩) :=
  ⟨(useModule_spec (⟨Heap.sized 4, 3, 5⟩ : VMState Nat) ⟨⟨0, []⟩⟩).1 rfl,
    by decide,
    (useModule_spec (⟨Heap.empty, 3, 5⟩ : VMState Nat)
      ⟨⟨16, [⟨4, [1, 2, 3, 4]⟩]⟩⟩).2.1 (by decide) (by decide),
    (useModule_spec (⟨Heap.sized 4, 3, 5⟩ : VMState Nat)
      ⟨⟨16, [⟨4, [1, 2, 3, 4]⟩]⟩⟩).2.2 (by decide) (by decide)⟩

/-! ## Sized construction and shrinking -/

theorem sized_of_le (n : Nat) (hn : n ≤ Heap.maxSize_) :
    Heap.sized n = ⟨List.replicate n 0, none⟩ := by
  unfold Heap.sized
  rw [resize_of_le Heap.empty n hn]
  simp [Heap.empty, vectorResize]

theorem sized_of_gt (n : Nat) (hn : Heap.maxSize_ < n) : Heap.sized n = Heap.empty := by
  unfold Heap.sized
  rw [resize_of_gt Heap.empty n hn]

/-- C16, as stated, fails: `Heap(maxSize + 1)` is not a construction failure;
the constructor discards the false result of `resize` and yields the empty
heap, on which the operations work as on any heap. -/
theorem sized_above_maxSize_is_empty :
    (Heap.empty.resize (Heap.maxSize_ + 1)).ret = false
      ∧ Heap.sized (Heap.maxSize_ + 1) = ⟨[], none⟩
      ∧ (Heap.sized (Heap.maxSize_ + 1)).size = 0
      ∧ ((Heap.sized (Heap.maxSize_ + 1)).grow 2).heap.data_ = [0, 0] := by
  have he : Heap.sized (Heap.maxSize_ + 1) = Heap.empty :=
    sized_of_gt _ (Nat.lt_succ_self _)
  rw [he, resize_of_gt Heap.empty _ (Nat.lt_succ_self _)]
  decide

/-- C16, amended: `Heap(n)` with `n ≤ maxSize` is a heap of exactly `n` zero
bytes with no observer; with `n > maxSize` the constructor still completes and
the object is the empty heap. -/
theorem sized_spec (n : Nat) :
    (n ≤ Heap.maxSize_ → Heap.sized n = ⟨List.replicate n 0, none⟩
        ∧ (Heap.sized n).size = n)
      ∧ (Heap.maxSize_ < n → Heap.sized n = Heap.empty ∧ (Heap.sized n).size = 0) := by
  constructor
  · intro hn
    rw [sized_of_le n hn]
    exact ⟨rfl, by simp [Heap.size]⟩
  · intro hn
    rw [sized_of_gt n hn]
    exact ⟨rfl, rfl⟩

/-- Instances of `sized_spec`: `Heap(4)` and `Heap(maxSize + 1)`. -/
theorem sized_spec_witness :
    (Heap.sized 4 = ⟨List.replicate 4 0, none⟩ ∧ (Heap.sized 4).size = 4)
      ∧ (Heap.sized (Heap.maxSize_ + 1) = Heap.empty
        ∧ (Heap.sized (Heap.maxSize_ + 1)).size = 0) :=
  ⟨(sized_spec 4).1 (by decide), (sized_spec (Heap.maxSize_ + 1)).2 (by decide)⟩

theorem shrink_of_le (h : Heap) (delta : Nat) (hd : delta ≤ h.data_.length) :
    h.shrink delta =
      ⟨true, { h with data_ := h.data_.take (h.data_.length - delta) }, []⟩ := by
  unfold Heap.shrink
  have e : (h.data_.length - delta) - h.data_.length = 0 := by omega
  simp [Nat.not_lt.mpr hd, vectorResize, e]

theorem shrink_of_gt (h : Heap) (delta : Nat) (hd : h.data_.length < delta) :
    h.shrink delta = ⟨false, h, []⟩ := by
  unfold Heap.shrink
  simp [hd]

/-- C17: `shrink(delta)` returns false exactly when `delta > size`, leaving the
heap unchanged; otherwise it returns true and the heap is the first
`size - delta` bytes of the old one, so `shrink(size)` gives the empty heap. -/
theorem shrink_spec (h : Heap) (delta : Nat) :
    ((h.shrink delta).ret = false ↔ h.size < delta)
      ∧ ((h.shrink delta).ret = false → h.shrink delta = ⟨false, h, []⟩)
      ∧ ((h.shrink delta).ret = true →
          h.shrink delta = ⟨true, { h with data_ := h.data_.take (h.size - delta) }, []⟩)
      ∧ h.shrink h.size = ⟨true, { h with data_ := [] }, []⟩ := by
  unfold Heap.size
  refine ⟨?_, ?_, ?_, ?_⟩
  · by_cases hd : delta ≤ h.data_.length
    · rw [shrink_of_le h delta hd]; simp [hd]
    · rw [shrink_of_gt h delta (by omega)]; simp; omega
  · intro hr
    by_cases hd : delta ≤ h.data_.length
    · rw [shrink_of_le h delta hd] at hr; simp at hr
    · exact shrink_of_gt h delta (by omega)
  · intro hr
    by_cases hd : delta ≤ h.data_.length
    · exact shrink_of_le h delta hd
    · rw [shrink_of_gt h delta (by omega)] at hr; simp at hr
  · rw [shrink_of_le h _ (Nat.le_refl _)]
    simp

/-- Instances of `shrink_spec` on the bytes `[0,0,7,8,9,0,0,0]`: shrinking by
five, by nine (a failure) and by the whole size. -/
theorem shrink_spec_witness :
    (((Heap.sized 8).setBytes 2 [7, 8, 9]).heap.shrink 5).heap.data_ = [0, 0, 7]
      ∧ ((Heap.sized 8).setBytes 2 [7, 8, 9]).heap.shrink 9
          = ⟨false, ((Heap.sized 8).setBytes 2 [7, 8, 9]).heap, []⟩
      ∧ ((Heap.sized 8).setBytes 2 [7, 8, 9]).heap.shrink 5
          = ⟨true, { ((Heap.sized 8).setBytes 2 [7, 8, 9]).heap with
              data_ := ((Heap.sized 8).setBytes 2 [7, 8, 9]).heap.data_.take
                (((Heap.sized 8).setBytes 2 [7, 8, 9]).heap.size - 5) }, []⟩ :=
  ⟨by decide,
    (shrink_spec ((Heap.sized 8).setBytes 2 [7, 8, 9]).heap 9).2.1 (by decide),
    (shrink_spec ((Heap.sized 8).setBytes 2 [7, 8, 9]).heap 5).2.2.1 (by decide)⟩

/-! ## Range comparison -/

theorem sizeSub_of_le {a b : Nat} (hba : b ≤ a) (ha : a ≤ SIZE_MAX) :
    sizeSub a b = a - b := by
  unfold sizeSub
  have e : a + (SIZE_MAX + 1) - b = (a - b) + (SIZE_MAX + 1) := by omega
  rw [e, Nat.add_mod_right]
  exact Nat.mod_eq_of_lt (by omega)

theorem slice_eq_iff (a b : List Byte) (pos n : Nat) :
    (a.drop pos).take n = (b.drop pos).take n ↔
      ∀ i, pos ≤ i → i < pos + n → a[i]? = b[i]? := by
  constructor
  · intro heq i h1 h2
    have hk : i - pos < n := by omega
    have hget := congrArg (fun l => l[i - pos]?) heq
    simp only [List.getElem?_take, hk, if_true, List.getElem?_drop] at hget
    rwa [show pos + (i - pos) = i by omega] at hget
  · intro hall
    apply List.ext_getElem?
    intro k
    simp only [List.getElem?_take, List.getElem?_drop]
    by_cases hk : k < n
    · simp only [hk, if_true]
      exact hall (pos + k) (by omega) (by omega)
    · simp only [hk, if_false]

theorem memcmpEq_in_range (a b : List Byte) (pos n : Nat)
    (ha : pos + n ≤ a.length) (hb : pos + n ≤ b.length) :
    ∃ r, memcmpEq a b pos n = some r
      ∧ (r = true ↔ ∀ i, pos ≤ i → i < pos + n → a[i]? = b[i]?) := by
  refine ⟨decide ((a.drop pos).take n = (b.drop pos).take n), ?_, ?_⟩
  · simp [memcmpEq, ha, hb]
  · rw [decide_eq_true_iff]
    exact slice_eq_iff a b pos n

/-- The comparison `equalRange` makes when the start of the range does not lie
beyond the clamped end: false when the end is beyond one of the sizes and the
sizes differ, and otherwise the bytewise comparison of `[start, e)` with
`e = min(end, size)`. -/
theorem equalRange_of_start_le (a b : Heap) (start stop : Nat)
    (hstop : stop ≤ SIZE_MAX) (hrep : a.representable) :
    ((a.size < stop ∨ b.size < stop) → a.size ≠ b.size →
        a.equalRange b start stop = some false)
      ∧ (¬ ((a.size < stop ∨ b.size < stop) ∧ a.size ≠ b.size) →
          start ≤ min stop a.size →
          ∃ r, a.equalRange b start stop = some r
            ∧ (r = true ↔
                ∀ i, start ≤ i → i < min stop a.size → a.data_[i]? = b.data_[i]?)) := by
  unfold Heap.representable at hrep
  unfold Heap.size
  constructor
  · intro hout hne
    unfold Heap.equalRange Heap.equalRangeOther Heap.size
    by_cases h1 : stop > a.data_.length
    · simp [h1, Ne.symm hne]
    · have h2 : stop > b.data_.length := by omega
      simp [h1, h2, Ne.symm hne]
  · intro hnot hstart
    unfold Heap.equalRange Heap.equalRangeOther Heap.size
    by_cases h1 : stop > a.data_.length
    · have hsz : b.data_.length = a.data_.length := by
        by_contra hc
        exact hnot ⟨Or.inl h1, fun e => hc e.symm⟩
      have hmin : min stop a.data_.length = a.data_.length := by omega
      rw [hmin] at hstart ⊢
      have h3 : ¬ (a.data_.length > b.data_.length) := by omega
      simp only [h1, if_true, hsz, ne_eq, not_true_eq_false, if_false, h3,
        gt_iff_lt, Nat.lt_irrefl]
      rw [sizeSub_of_le hstart hrep]
      obtain ⟨r, hr, hiff⟩ := memcmpEq_in_range a.data_ b.data_ start
        (a.data_.length - start) (by omega) (by omega)
      refine ⟨r, hr, ?_⟩
      rw [hiff, show start + (a.data_.length - start) = a.data_.length by omega]
    · have h2 : ¬ (stop > b.data_.length) := by
        intro hc
        exact hnot ⟨Or.inr hc, by omega⟩
      have hmin : min stop a.data_.length = stop := by omega
      rw [hmin] at hstart ⊢
      simp only [h1, h2, if_false]
      rw [sizeSub_of_le hstart hstop]
      obtain ⟨r, hr, hiff⟩ := memcmpEq_in_range a.data_ b.data_ start
        (stop - start) (by omega) (by omega)
      refine ⟨r, hr, ?_⟩
      rw [hiff, show start + (stop - start) = stop by omega]

/-- C18, at the failing input: on two heaps of size 4, `equalRange` with
`start = 6`, `end = 8` clamps `end` to 4 and calls `memcmp` with the wrapped
length `4 - 6 = 2 ^ 64 - 2` from offset 6, a read outside both buffers, where
the claim has the empty range compare equal without such a read. -/
theorem equalRange_start_beyond_clamp :
    (6 : Nat) ≤ 8
      ∧ (Heap.sized 4).size = 4
      ∧ sizeSub 4 6 = 2 ^ 64 - 2
      ∧ (Heap.sized 4).equalRange (Heap.sized 4) 6 8
          = memcmpEq (Heap.sized 4).data_ (Heap.sized 4).data_ 6 (2 ^ 64 - 2)
      ∧ (Heap.sized 4).equalRange (Heap.sized 4) 6 8 = none := by
  decide

/-! ## The size bound and the observer's frame -/

theorem length_copySegments (segs : List HeapSegment) (data out : List Byte)
    (h : Heap.copySegments segs data = some out) : out.length = data.length := by
  induction segs generalizing data with
  | nil =>
    simp only [Heap.copySegments, Option.some.injEq] at h
    rw [← h]
  | cons seg rest ih =>
    unfold Heap.copySegments stdCopy at h
    by_cases hfit : seg.offset + seg.data.length ≤ data.length
    · simp only [hfit, if_true] at h
      rw [ih _ h, length_writeAt hfit]
    · simp [hfit] at h

theorem resize_size_le (h : Heap) (n : Nat) (hinv : h.size ≤ Heap.maxSize_) :
    (h.resize n).heap.size ≤ Heap.maxSize_ := by
  by_cases hn : n ≤ Heap.maxSize_
  · rw [resize_of_le h n hn]
    simp only [Heap.size, length_vectorResize]
    exact hn
  · rw [resize_of_gt h n (by omega)]
    exact hinv

theorem fromHeapData_some (d : HeapData) (h : Heap) (hd : Heap.fromHeapData d = some h) :
    h.size = (Heap.empty.resize d.startSize).heap.size ∧ h.observer_ = none := by
  unfold Heap.fromHeapData at hd
  cases hc : Heap.copySegments d.segments
      (stdFill (Heap.empty.resize d.startSize).heap.data_ 0
        (Heap.empty.resize d.startSize).heap.data_.length 0) with
  | none => simp [hc] at hd
  | some out =>
    simp only [hc, Option.some.injEq] at hd
    have hl := length_copySegments _ _ _ hc
    subst hd
    constructor
    · simp only [Heap.size, hl, stdFill, List.take_zero, List.nil_append, Nat.sub_zero,
        List.length_append, List.length_replicate, List.length_drop, Nat.sub_self,
        Nat.add_zero]
    · by_cases hn : d.startSize ≤ Heap.maxSize_
      · rw [resize_of_le Heap.empty _ hn]; rfl
      · rw [resize_of_gt Heap.empty _ (by omega)]; rfl

theorem setStaticOffset_size (h : Heap) (order : ByteOrder) (s staticOffset off v : Nat) :
    (h.setStaticOffset order s staticOffset off v).heap.size = h.size := by
  rw [setStaticOffset_eq_set]
  by_cases hb : off + staticOffset + s ≤ SIZE_MAX ∧ off + staticOffset + s ≤ h.data_.length
  · rw [set_of_inBounds h order s _ v hb.1 hb.2]
    simp only [Heap.size]
    exact length_writeAt (by rw [length_objectRepr]; exact hb.2)
  · rw [set_of_outOfBounds h order s _ v (by omega)]

theorem set_size (h : Heap) (order : ByteOrder) (s off v : Nat) :
    (h.set order s off v).heap.size = h.size := by
  by_cases hb : off + s ≤ SIZE_MAX ∧ off + s ≤ h.data_.length
  · rw [set_of_inBounds h order s _ v hb.1 hb.2]
    simp only [Heap.size]
    exact length_writeAt (by rw [length_objectRepr]; exact hb.2)
  · rw [set_of_outOfBounds h order s _ v (by omega)]

theorem setBytes_size (h : Heap) (off : Nat) (bs : List Byte) :
    (h.setBytes off bs).heap.size = h.size := by
  by_cases hb : off + bs.length ≤ SIZE_MAX ∧ off + bs.length ≤ h.data_.length
  · rw [setBytes_of_inBounds h off bs hb.1 hb.2]
    simp only [Heap.size]
    exact length_writeAt hb.2
  · unfold Heap.setBytes
    by_cases hov : SIZE_MAX < off + bs.length
    · rw [safeSizeTAddition_eq_none.mpr hov]
    · simp only [safeSizeTAddition_of_le (Nat.le_of_not_lt hov)]
      have : off + bs.length > h.data_.length := by omega
      simp only [this, if_true]

theorem setByte_size (h : Heap) (pos : Nat) (v : Byte) :
    (h.setByte pos v).heap.size = h.size := by
  unfold Heap.setByte
  split_ifs <;> simp [Heap.size]

theorem grow_size_le (h : Heap) (delta : Nat) (hinv : h.size ≤ Heap.maxSize_) :
    (h.grow delta).heap.size ≤ Heap.maxSize_ := by
  by_cases hb : SIZE_MAX < h.data_.length + delta ∨ Heap.maxSize_ < h.data_.length + delta
  · rw [grow_of_not_fits h delta hb]
    exact hinv
  · rw [grow_of_fits h delta (by omega) (by omega)]
    simp only [Heap.size, List.length_append, List.length_replicate]
    omega

theorem shrink_size_le (h : Heap) (delta : Nat) (hinv : h.size ≤ Heap.maxSize_) :
    (h.shrink delta).heap.size ≤ Heap.maxSize_ := by
  unfold Heap.size at hinv
  by_cases hd : delta ≤ h.data_.length
  · rw [shrink_of_le h delta hd]
    simp only [Heap.size, List.length_take]
    omega
  · rw [shrink_of_gt h delta (by omega)]
    exact hinv

/-- C19: `size ≤ maxSize_` holds after the default constructor, after `Heap(n)`
and after construction from a `HeapData`, and every one of `grow`, `shrink`,
`resize`, `set`, `setStaticOffset`, `setByte` and `setBytes` preserves it, for
all arguments and whether the call succeeds or fails. -/
theorem size_le_maxSize (h : Heap) (hinv : h.size ≤ Heap.maxSize_) :
    Heap.empty.size ≤ Heap.maxSize_
      ∧ (∀ n, (Heap.sized n).size ≤ Heap.maxSize_)
      ∧ (∀ d h1, Heap.fromHeapData d = some h1 → h1.size ≤ Heap.maxSize_)
      ∧ (∀ delta, (h.grow delta).heap.size ≤ Heap.maxSize_)
      ∧ (∀ delta, (h.shrink delta).heap.size ≤ Heap.maxSize_)
      ∧ (∀ n, (h.resize n).heap.size ≤ Heap.maxSize_)
      ∧ (∀ order s off v, (h.set order s off v).heap.size ≤ Heap.maxSize_)
      ∧ (∀ order s staticOffset off v,
          (h.setStaticOffset order s staticOffset off v).heap.size ≤ Heap.maxSize_)
      ∧ (∀ pos v, (h.setByte pos v).heap.size ≤ Heap.maxSize_)
      ∧ (∀ off bs, (h.setBytes off bs).heap.size ≤ Heap.maxSize_) := by
  have hempty : Heap.empty.size ≤ Heap.maxSize_ := by decide
  refine ⟨hempty, ?_, ?_, ?_, ?_, ?_, ?_, ?_, ?_, ?_⟩
  · intro n
    exact resize_size_le Heap.empty n hempty
  · intro d h1 hd
    rw [(fromHeapData_some d h1 hd).1]
    exact resize_size_le Heap.empty d.startSize hempty
  · intro delta
    exact grow_size_le h delta hinv
  · intro delta
    exact shrink_size_le h delta hinv
  · intro n
    exact resize_size_le h n hinv
  · intro order s off v
    rw [set_size]; exact hinv
  · intro order s staticOffset off v
    rw [setStaticOffset_size]; exact hinv
  · intro pos v
    rw [setByte_size]; exact hinv
  · intro off bs
    rw [setBytes_size]; exact hinv

/-- An instance of `size_le_maxSize` on `Heap(8)`, with a growth that would
pass `maxSize_` and so leaves the size at 8. -/
theorem size_le_maxSize_witness :
    (Heap.sized 8).size ≤ Heap.maxSize_
      ∧ ((Heap.sized 8).grow Heap.maxSize_).heap.size = 8
      ∧ ((Heap.sized 8).grow Heap.maxSize_).heap.size ≤ Heap.maxSize_
      ∧ (Heap.sized (Heap.maxSize_ + 1)).size ≤ Heap.maxSize_ :=
  ⟨by decide, by decide,
    (size_le_maxSize (Heap.sized 8) (by decide)).2.2.2.1 Heap.maxSize_,
    (size_le_maxSize (Heap.sized 8) (by decide)).2.1 (Heap.maxSize_ + 1)⟩

theorem grow_calls (h : Heap) (delta : Nat) : (h.grow delta).calls = [] := by
  by_cases hb : SIZE_MAX < h.data_.length + delta ∨ Heap.maxSize_ < h.data_.length + delta
  · rw [grow_of_not_fits h delta hb]
  · rw [grow_of_fits h delta (by omega) (by omega)]

theorem shrink_calls (h : Heap) (delta : Nat) : (h.shrink delta).calls = [] := by
  by_cases hd : delta ≤ h.data_.length
  · rw [shrink_of_le h delta hd]
  · rw [shrink_of_gt h delta (by omega)]

theorem resize_calls (h : Heap) (n : Nat) : (h.resize n).calls = [] := by
  by_cases hn : n ≤ Heap.maxSize_
  · rw [resize_of_le h n hn]
  · rw [resize_of_gt h n (by omega)]

theorem setByte_calls (h : Heap) (pos : Nat) (v : Byte) : (h.setByte pos v).calls = [] := by
  unfold Heap.setByte
  split_ifs <;> rfl

theorem setBytes_calls (h : Heap) (off : Nat) (bs : List Byte) :
    (h.setBytes off bs).calls = [] := by
  by_cases hb : off + bs.length ≤ SIZE_MAX ∧ off + bs.length ≤ h.data_.length
  · rw [setBytes_of_inBounds h off bs hb.1 hb.2]
  · unfold Heap.setBytes
    by_cases hov : SIZE_MAX < off + bs.length
    · rw [safeSizeTAddition_eq_none.mpr hov]
    · simp only [safeSizeTAddition_of_le (Nat.le_of_not_lt hov)]
      have : off + bs.length > h.data_.length := by omega
      simp only [this, if_true]

/-- C20: on a heap with an attached observer, `grow`, `shrink`, `resize`,
`setByte` and `setBytes` make no `preChanged` call, and a heap constructed from
segments has no observer to call; a successful `setStaticOffset<T>` makes exactly
one call, with the heap as it was before the write and the interval
`[offset + staticOffset, offset + staticOffset + sizeof(T))`, neither bound of
which wraps. -/
theorem observer_frame (h : Heap) (o : ObserverPtr) (hobs : h.observer_ = some o) :
    (∀ delta, (h.grow delta).calls = [])
      ∧ (∀ delta, (h.shrink delta).calls = [])
      ∧ (∀ n, (h.resize n).calls = [])
      ∧ (∀ pos v, (h.setByte pos v).calls = [])
      ∧ (∀ off bs, (h.setBytes off bs).calls = [])
      ∧ (∀ d h1, Heap.fromHeapData d = some h1 → h1.observer_ = none)
      ∧ (∀ order s staticOffset off v,
          (h.setStaticOffset order s staticOffset off v).ret = true →
          (h.setStaticOffset order s staticOffset off v).calls
              = [⟨o, h, Interval.withEnd (off + staticOffset) (off + staticOffset + s)⟩]
            ∧ sizeAdd off staticOffset = off + staticOffset
            ∧ sizeAdd (sizeAdd off staticOffset) s = off + staticOffset + s
            ∧ (Interval.withEnd (sizeAdd off staticOffset)
                (sizeAdd (sizeAdd off staticOffset) s)).ordered
            ∧ (h.setStaticOffset order s staticOffset off v).heap.data_
              = writeAt h.data_ (off + staticOffset) (objectRepr order s v)) := by
  refine ⟨grow_calls h, shrink_calls h, resize_calls h, setByte_calls h, setBytes_calls h,
    fun d h1 hd => (fromHeapData_some d h1 hd).2, ?_⟩
  intro order s staticOffset off v hr
  rw [setStaticOffset_eq_set] at hr ⊢
  obtain ⟨h1, h2⟩ := (set_ret_iff h order s (off + staticOffset) v).mp hr
  rw [set_of_inBounds h order s (off + staticOffset) v h1 h2]
  have e1 : sizeAdd off staticOffset = off + staticOffset := sizeAdd_of_le (by omega)
  have e2 : sizeAdd (off + staticOffset) s = off + staticOffset + s := sizeAdd_of_le h1
  refine ⟨by simp only [hobs, Interval.withEnd], e1, by rw [e1, e2], ?_, rfl⟩
  rw [e1, e2]
  unfold Interval.ordered Interval.withEnd
  exact Nat.le_add_right _ _

/-- An instance of `observer_frame`: observer `7` attached to eight zero bytes
sees no call for `grow`, `setByte` and `setBytes`, and one call, with the bytes
still zero and the interval `[3, 7)`, for `setStaticOffset<uint32>(1, 2, _)`. -/
theorem observer_frame_witness :
    (⟨List.replicate 8 0, some 7⟩ : Heap).observer_ = some 7
      ∧ ((⟨List.replicate 8 0, some 7⟩ : Heap).grow 4).calls = []
      ∧ ((⟨List.replicate 8 0, some 7⟩ : Heap).setByte 2 9).calls = []
      ∧ ((⟨List.replicate 8 0, some 7⟩ : Heap).setBytes 2 [7, 8, 9]).calls = []
      ∧ ((⟨List.replicate 8 0, some 7⟩ : Heap).setStaticOffset .little 4 1 2
            0xDEADBEEF).calls
          = [⟨7, ⟨[0, 0, 0, 0, 0, 0, 0, 0], some 7⟩, ⟨3, 7⟩⟩]
      ∧ ((⟨List.replicate 8 0, some 7⟩ : Heap).setStaticOffset .little 4 1 2
            0xDEADBEEF).heap.data_
          = [0, 0, 0, 0xEF, 0xBE, 0xAD, 0xDE, 0] :=
  ⟨rfl,
    (observer_frame ⟨List.replicate 8 0, some 7⟩ 7 rfl).1 4,
    (observer_frame ⟨List.replicate 8 0, some 7⟩ 7 rfl).2.2.2.1 2 9,
    (observer_frame ⟨List.replicate 8 0, some 7⟩ 7 rfl).2.2.2.2.1 2 [7, 8, 9],
    ((observer_frame ⟨List.replicate 8 0, some 7⟩ 7 rfl).2.2.2.2.2.2 .little 4 1 2
      0xDEADBEEF (by decide)).1,
    by decide⟩

end wasmint
